import Mathlib

/-!
# Verification of the `jwt_audit` detector pipeline and scoring engine

A shallow embedding of the Python sources under `src/jwt_audit/src/`:
`auditor.py` (token decoding, audit orchestration, scoring) and the two
detectors `detectors/none_algorithm.py` and `detectors/weak_key.py`.

Modelling conventions:
* A Python `str` is modelled as a list of Unicode code points (`PyStr :=
  List Nat`); unlike Lean `Char`, this can represent lone surrogates,
  which Python strings (and `json.loads`) allow.
* Python `bytes` are modelled as `List Nat` with values below 256.
* JSON values are modelled by the inductive `Json`; numbers are restricted
  to integers.  No claim concerns floating-point JSON numbers, and
  `json.loads` input holding a float, `NaN` or `Infinity` literal is
  modelled as a parse failure (a documented model restriction).
* Python exceptions are modelled with `Option`/`Except`: a detector that
  raises yields `none`, and `decode_jwt` yields `.error msg` where the
  Python code raises `ValueError(msg)` (inner exception texts are
  abbreviated; only their non-emptiness matters to the claims).
* `str.lower` / `str.upper` are modelled on the ASCII range (the full
  Unicode case mapping is irrelevant to the compared literals).
-/

namespace JWTAudit

/-- A Python string: a list of Unicode code points. -/
abbrev PyStr := List Nat

/-- Embed a Lean string literal as a `PyStr` (for concrete inputs). -/
def pystr (s : String) : PyStr := s.toList.map Char.toNat

/-- Python's `token.split('.')` (46 is the code point of `'.'`).
`"".split('.')` is `['']`, matching the `[[]]` base case. -/
def pySplitDot : PyStr → List PyStr
  | [] => [[]]
  | c :: rest =>
    match pySplitDot rest with
    | [] => [[]]
    | s :: ss => if c = 46 then [] :: s :: ss else (c :: s) :: ss

/-! ## Base64 (as used by `base64.urlsafe_b64encode` / `base64.b64decode`) -/

/-- The URL-safe Base64 alphabet (`-`/`_` for 62/63), by 6-bit value. -/
def b64UrlChar (n : Nat) : Nat :=
  if n < 26 then 65 + n
  else if n < 52 then 71 + n
  else if n < 62 then n - 4
  else if n = 62 then 45
  else 95

/-- Value of a standard-alphabet Base64 character, `none` for other chars. -/
def b64DigitStd (c : Nat) : Option Nat :=
  if 65 ≤ c ∧ c ≤ 90 then some (c - 65)
  else if 97 ≤ c ∧ c ≤ 122 then some (c - 71)
  else if 48 ≤ c ∧ c ≤ 57 then some (c + 4)
  else if c = 43 then some 62
  else if c = 47 then some 63
  else none

/-- The 6-bit groups of a byte sequence (MSB first), including the final
partial group, as produced by Base64 encoding. -/
def sixbits : List Nat → List Nat
  | b1 :: b2 :: b3 :: rest =>
      b1 / 4 :: (b1 % 4 * 16 + b2 / 16) :: (b2 % 16 * 4 + b3 / 64) :: b3 % 64 :: sixbits rest
  | [b1, b2] => [b1 / 4, b1 % 4 * 16 + b2 / 16, b2 % 16 * 4]
  | [b1] => [b1 / 4, b1 % 4 * 16]
  | [] => []

/-- Reassemble bytes from 6-bit groups (inverse of `sixbits`; a trailing
group of one 6-bit value carries no complete byte and is rejected upstream). -/
def b64DecodeDigits : List Nat → List Nat
  | d1 :: d2 :: d3 :: d4 :: rest =>
      (d1 * 4 + d2 / 16) :: (d2 % 16 * 16 + d3 / 4) :: (d3 % 4 * 64 + d4) :: b64DecodeDigits rest
  | [d1, d2, d3] => [d1 * 4 + d2 / 16, d2 % 16 * 16 + d3 / 4]
  | [d1, d2] => [d1 * 4 + d2 / 16]
  | _ => []

/-- `base64.urlsafe_b64encode`: URL-safe alphabet with `'='` (61) padding. -/
def urlsafe_b64encode (bs : List Nat) : PyStr :=
  (sixbits bs).map b64UrlChar ++ List.replicate ((3 - bs.length % 3) % 3) 61

/-- Python's `str.rstrip('=')`. -/
def rstripEq (s : PyStr) : PyStr := (s.reverse.dropWhile (fun c => c = 61)).reverse

/-- The characters `base64.b64decode` retains: alphabet plus `'='`. -/
def b64keep (s : PyStr) : PyStr := s.filter (fun c => (b64DigitStd c).isSome || c = 61)

/-- The 6-bit data values of the retained characters. -/
def b64data (s : PyStr) : List Nat := (b64keep s).filterMap b64DigitStd

/-- The number of retained `'='` padding characters. -/
def b64pads (s : PyStr) : Nat := ((b64keep s).filter (fun c => c = 61)).length

/-- Model of `base64.b64decode` (standard alphabet, default non-validating
mode): characters outside the alphabet and `'='` are discarded, the total
length (data plus padding) must be a multiple of 4, and a final group of a
single data character is an error.  (CPython is additionally picky about
`'='` placement; that corner is never exercised by the claims.) -/
def b64decode (s : PyStr) : Option (List Nat) :=
  if ((b64data s).length + b64pads s) % 4 ≠ 0 then none
  else if (b64data s).length % 4 = 1 then none
  else some (b64DecodeDigits (b64data s))

/-- `data.replace('-', '+').replace('_', '/')` on one character. -/
def urlToStd (c : Nat) : Nat := if c = 45 then 43 else if c = 95 then 47 else c

/-- `'='` padding restoration: bring the length up to a multiple of 4
(`padding = 4 - len(data) % 4; if padding != 4: data += "=" * padding`). -/
def b64AddPad (data : PyStr) : PyStr :=
  if 4 - data.length % 4 ≠ 4 then data ++ List.replicate (4 - data.length % 4) 61 else data

/-- The inner `base64url_decode` of `decode_jwt`: restore `'='` padding,
translate `-`/`_` (45/95) to `+`/`/` (43/47), then `base64.b64decode`. -/
def base64url_decode (data : PyStr) : Option (List Nat) :=
  b64decode ((b64AddPad data).map urlToStd)

/-! ## UTF-8 (`str.encode()` / `bytes.decode('utf-8')`) -/

/-- UTF-8 encoding of one code point. -/
def utf8EncodeChar (c : Nat) : List Nat :=
  if c < 128 then [c]
  else if c < 2048 then [192 + c / 64, 128 + c % 64]
  else if c < 65536 then [224 + c / 4096, 128 + c / 64 % 64, 128 + c % 64]
  else [240 + c / 262144, 128 + c / 4096 % 64, 128 + c / 64 % 64, 128 + c % 64]

/-- `str.encode()`: UTF-8 bytes of a string.  (Python raises on surrogates;
the encoder is only ever applied to ASCII `json.dumps` output here.) -/
def utf8Encode : PyStr → List Nat
  | [] => []
  | c :: s => utf8EncodeChar c ++ utf8Encode s

/-- A UTF-8 continuation byte. -/
def utf8Cont (b : Nat) : Bool := 128 ≤ b && b < 192

/-- Code point of a two-byte sequence. -/
def utf8V2 (b b2 : Nat) : Nat := (b - 192) * 64 + (b2 - 128)

/-- Code point of a three-byte sequence. -/
def utf8V3 (b b2 b3 : Nat) : Nat := (b - 224) * 4096 + (b2 - 128) * 64 + (b3 - 128)

/-- Code point of a four-byte sequence. -/
def utf8V4 (b b2 b3 b4 : Nat) : Nat :=
  (b - 240) * 262144 + (b2 - 128) * 4096 + (b3 - 128) * 64 + (b4 - 128)

/-- A three-byte sequence's value is in range (not overlong, not a surrogate). -/
def utf8Ok3 (c : Nat) : Bool := !(c < 2048 || (55296 ≤ c && c < 57344))

/-- A four-byte sequence's value is in range (not overlong, at most U+10FFFF). -/
def utf8Ok4 (c : Nat) : Bool := !(c < 65536 || 1114111 < c)

/-- Strict UTF-8 decoding (`bytes.decode('utf-8')`): rejects stray
continuation bytes (128–193 as a lead byte is either a continuation or an
overlong two-byte lead), overlong forms, surrogates and values above
U+10FFFF. -/
def utf8Decode : List Nat → Option PyStr
  | [] => some []
  | [b] => if b < 128 then some [b] else none
  | [b, b2] =>
    if b < 128 then (utf8Decode [b2]).map (fun s => b :: s)
    else if 194 ≤ b ∧ b < 224 ∧ utf8Cont b2 then some [utf8V2 b b2]
    else none
  | [b, b2, b3] =>
    if b < 128 then (utf8Decode [b2, b3]).map (fun s => b :: s)
    else if 194 ≤ b ∧ b < 224 ∧ utf8Cont b2 then (utf8Decode [b3]).map (fun s => utf8V2 b b2 :: s)
    else if 224 ≤ b ∧ b < 240 ∧ utf8Cont b2 ∧ utf8Cont b3 ∧ utf8Ok3 (utf8V3 b b2 b3) then
      some [utf8V3 b b2 b3]
    else none
  | b :: b2 :: b3 :: b4 :: bs =>
    if b < 128 then (utf8Decode (b2 :: b3 :: b4 :: bs)).map (fun s => b :: s)
    else if 194 ≤ b ∧ b < 224 ∧ utf8Cont b2 then
      (utf8Decode (b3 :: b4 :: bs)).map (fun s => utf8V2 b b2 :: s)
    else if 224 ≤ b ∧ b < 240 ∧ utf8Cont b2 ∧ utf8Cont b3 ∧ utf8Ok3 (utf8V3 b b2 b3) then
      (utf8Decode (b4 :: bs)).map (fun s => utf8V3 b b2 b3 :: s)
    else if 240 ≤ b ∧ b < 245 ∧ utf8Cont b2 ∧ utf8Cont b3 ∧ utf8Cont b4 ∧
        utf8Ok4 (utf8V4 b b2 b3 b4) then
      (utf8Decode bs).map (fun s => utf8V4 b b2 b3 b4 :: s)
    else none

/-! ## JSON values -/

/-- A JSON value as handled by Python's `json` module (numbers restricted
to integers; see the module comment).  Objects are association lists in
insertion order, modelling Python dicts. -/
inductive Json where
  | null
  | bool (b : Bool)
  | num (n : Int)
  | str (s : PyStr)
  | arr (xs : List Json)
  | obj (kvs : List (PyStr × Json))

/-- Membership of a key in a key list (Python `k in d`). -/
def memKey (k : PyStr) : List PyStr → Bool
  | [] => false
  | k2 :: ks => if k2 = k then true else memKey k ks

/-- All keys pairwise distinct — the basic invariant of a Python dict. -/
def keysDistinct : List PyStr → Bool
  | [] => true
  | k :: ks => !memKey k ks && keysDistinct ks

/-- A string producible as (part of) a Python `str` that went through
`json.loads`: code points are at most U+10FFFF and no lone high surrogate
is immediately followed by a low surrogate (the scanner would have
combined such a pair into one astral code point). -/
def strOkB : PyStr → Bool
  | [] => true
  | [c] => decide (c < 1114112)
  | c :: c2 :: rest =>
    if c < 1114112 ∧ ¬(55296 ≤ c ∧ c < 56320 ∧ 56320 ≤ c2 ∧ c2 < 57344) then strOkB (c2 :: rest)
    else false

mutual
/-- Well-formedness of a `Json` value as a value reachable inside the
auditor: every object has distinct keys (it models a dict) and every
string satisfies `strOkB`. -/
def jwf : Json → Bool
  | .null => true
  | .bool _ => true
  | .num _ => true
  | .str s => strOkB s
  | .arr xs => jwfArr xs
  | .obj kvs => keysDistinct (kvs.map Prod.fst) && jwfObj kvs
def jwfArr : List Json → Bool
  | [] => true
  | x :: xs => jwf x && jwfArr xs
def jwfObj : List (PyStr × Json) → Bool
  | [] => true
  | (k, v) :: kvs => strOkB k && jwf v && jwfObj kvs
end

/-- `d[k] = v` on an association-list dict: replaces the value at the first
occurrence of `k` in place, else appends — exactly a Python dict update's
effect on insertion order. -/
def dInsert (kvs : List (PyStr × Json)) (k : PyStr) (v : Json) : List (PyStr × Json) :=
  match kvs with
  | [] => [(k, v)]
  | (k0, v0) :: rest => if k0 = k then (k0, v) :: rest else (k0, v0) :: dInsert rest k v

/-- First-occurrence association lookup (`d[k]` / `d.get(k)`). -/
def lookupD (kvs : List (PyStr × Json)) (k : PyStr) : Option Json :=
  match kvs with
  | [] => none
  | (k0, v0) :: rest => if k0 = k then some v0 else lookupD rest k

/-- Build a dict from a parsed member list (Python's object hook assigns
pairs in order, so a duplicate key keeps its first position, last value). -/
def dFromPairs (ps : List (PyStr × Json)) : List (PyStr × Json) :=
  ps.foldl (fun d p => dInsert d p.1 p.2) []

/-! ## `json.dumps(·, separators=(',', ':'))` -/

/-- Lowercase hexadecimal digit character. -/
def hexDigit (d : Nat) : Nat := if d < 10 then 48 + d else 87 + d

/-- Four lowercase hex digits of `n % 0x10000` (as in `'\u%04x' % n`). -/
def hex4 (n : Nat) : PyStr :=
  [hexDigit (n / 4096 % 16), hexDigit (n / 256 % 16), hexDigit (n / 16 % 16), hexDigit (n % 16)]

/-- `json.dumps` escaping of one character with `ensure_ascii=True`:
`"`/`\` and the five short escapes, printable ASCII verbatim, everything
else as `\uXXXX` (a surrogate pair for astral code points). -/
def escapeChar (c : Nat) : PyStr :=
  if c = 34 then [92, 34]
  else if c = 92 then [92, 92]
  else if c = 8 then [92, 98]
  else if c = 9 then [92, 116]
  else if c = 10 then [92, 110]
  else if c = 12 then [92, 102]
  else if c = 13 then [92, 114]
  else if 32 ≤ c ∧ c ≤ 126 then [c]
  else if c < 65536 then 92 :: 117 :: hex4 c
  else 92 :: 117 :: hex4 (55296 + (c - 65536) / 1024) ++ (92 :: 117 :: hex4 (56320 + (c - 65536) % 1024))

/-- The escaped body of a JSON string literal. -/
def escBody : PyStr → PyStr
  | [] => []
  | c :: s => escapeChar c ++ escBody s

/-- Decimal digits of a positive natural, most significant first. -/
def natStrAux (n : Nat) : PyStr :=
  if n = 0 then [] else natStrAux (n / 10) ++ [48 + n % 10]

/-- Python `str(n)` for a natural number. -/
def natStr (n : Nat) : PyStr := if n = 0 then [48] else natStrAux n

/-- Python `str(n)` for an integer. -/
def intStr (n : Int) : PyStr := if n < 0 then 45 :: natStr n.natAbs else natStr n.toNat

mutual
/-- `json.dumps(x, separators=(',', ':'))`: most compact serialization,
`ensure_ascii=True` (the Python default). -/
def json_dumps : Json → PyStr
  | .null => [110, 117, 108, 108]
  | .bool true => [116, 114, 117, 101]
  | .bool false => [102, 97, 108, 115, 101]
  | .num n => intStr n
  | .str s => 34 :: escBody s ++ [34]
  | .arr [] => [91, 93]
  | .arr (x :: xs) => 91 :: (json_dumps x ++ dumpsArrRest xs) ++ [93]
  | .obj [] => [123, 125]
  | .obj ((k, v) :: kvs) =>
      123 :: (34 :: escBody k ++ 34 :: 58 :: json_dumps v ++ dumpsObjRest kvs) ++ [125]
def dumpsArrRest : List Json → PyStr
  | [] => []
  | x :: xs => 44 :: json_dumps x ++ dumpsArrRest xs
def dumpsObjRest : List (PyStr × Json) → PyStr
  | [] => []
  | (k, v) :: kvs => 44 :: 34 :: escBody k ++ 34 :: 58 :: json_dumps v ++ dumpsObjRest kvs
end

/-! ## `json.loads` -/

/-- JSON whitespace (space, tab, newline, carriage return). -/
def isWs (c : Nat) : Bool := c = 32 || c = 9 || c = 10 || c = 13

/-- ASCII decimal digit. -/
def isDigit (c : Nat) : Bool := 48 ≤ c && c ≤ 57

/-- Value of a digit string (`int(s)` on digits). -/
def digitsVal (ds : PyStr) : Nat := ds.foldl (fun a d => a * 10 + (d - 48)) 0

/-- Hex digit value (`int(c, 16)`), both cases. -/
def hexVal (c : Nat) : Option Nat :=
  if 48 ≤ c ∧ c ≤ 57 then some (c - 48)
  else if 97 ≤ c ∧ c ≤ 102 then some (c - 87)
  else if 65 ≤ c ∧ c ≤ 70 then some (c - 55)
  else none

/-- Value of four hex digit characters. -/
def hex4Val (a b c d : Nat) : Option Nat := do
  pure ((← hexVal a) * 4096 + (← hexVal b) * 256 + (← hexVal c) * 16 + (← hexVal d))

/-- Short escape values (`\" \\ \/ \b \f \n \r \t`). -/
def escVal (e : Nat) : Option Nat :=
  if e = 34 then some 34 else if e = 92 then some 92 else if e = 47 then some 47
  else if e = 98 then some 8 else if e = 102 then some 12 else if e = 110 then some 10
  else if e = 114 then some 13 else if e = 116 then some 9 else none

/-- Python's `py_scanstring` after the opening quote: literal characters
(control characters rejected, `strict=True`), short escapes, and `\uXXXX`
with a high surrogate combining with an immediately following `\u` low
surrogate (a surrogate that does not pair stays as a lone code point,
which Python strings allow). -/
def parseStringBody : PyStr → Option (PyStr × PyStr)
  | [] => none
  | 34 :: rest => some ([], rest)
  | 92 :: 117 :: a :: b :: c :: d :: 92 :: 117 :: a2 :: b2 :: c2 :: d2 :: rest2 =>
    match hex4Val a b c d with
    | none => none
    | some n =>
      if 55296 ≤ n ∧ n < 56320 then
        match hex4Val a2 b2 c2 d2 with
        | some m =>
          if 56320 ≤ m ∧ m < 57344 then
            (parseStringBody rest2).map
              (fun p => ((65536 + (n - 55296) * 1024 + (m - 56320)) :: p.1, p.2))
          else
            (parseStringBody (92 :: 117 :: a2 :: b2 :: c2 :: d2 :: rest2)).map
              (fun p => (n :: p.1, p.2))
        | none =>
          (parseStringBody (92 :: 117 :: a2 :: b2 :: c2 :: d2 :: rest2)).map
            (fun p => (n :: p.1, p.2))
      else
        (parseStringBody (92 :: 117 :: a2 :: b2 :: c2 :: d2 :: rest2)).map
          (fun p => (n :: p.1, p.2))
  | 92 :: 117 :: a :: b :: c :: d :: rest =>
    match hex4Val a b c d with
    | none => none
    | some n => (parseStringBody rest).map (fun p => (n :: p.1, p.2))
  | 92 :: e :: rest =>
    match escVal e with
    | some c => (parseStringBody rest).map (fun p => (c :: p.1, p.2))
    | none => none
  | c :: rest => if c < 32 then none else (parseStringBody rest).map (fun p => (c :: p.1, p.2))

/-- Number scanning per the JSON grammar, integers only: an optional
minus, then either a single `0` or a nonzero-led digit run.  A fraction
or exponent continuation means a float literal, which this model rejects
(documented restriction); `NaN`/`Infinity` likewise fall through to
`none` in `parseVal`. -/
def parseNumberFrom (cs : PyStr) : Option (Json × PyStr) :=
  let neg := cs.head? = some 45
  let cs1 := if neg then cs.tail else cs
  match cs1.takeWhile isDigit with
  | [] => none
  | d :: ds =>
    let digits := if d = 48 then [48] else d :: ds
    let r := cs1.drop digits.length
    if r.head? = some 46 ∨ r.head? = some 101 ∨ r.head? = some 69 then none
    else
      let v : Int := (digitsVal digits : Int)
      some (.num (if neg then -v else v), r)

mutual
/-- Recursive-descent value parser (Python's `json` scanner).  The fuel
argument only bounds recursion depth: every two fuel levels consume at
least one input character, so the fuel chosen in `json_loads` is never
the binding constraint. -/
def parseVal : Nat → PyStr → Option (Json × PyStr)
  | 0, _ => none
  | f + 1, cs =>
    match cs.dropWhile isWs with
    | [] => none
    | c :: rest =>
      if c = 123 then
        match rest.dropWhile isWs with
        | 125 :: rest2 => some (.obj [], rest2)
        | _ => (parseMembers f rest).map (fun p => (.obj (dFromPairs p.1), p.2))
      else if c = 91 then
        match rest.dropWhile isWs with
        | 93 :: rest2 => some (.arr [], rest2)
        | _ => (parseItems f rest).map (fun p => (.arr p.1, p.2))
      else if c = 34 then (parseStringBody rest).map (fun p => (.str p.1, p.2))
      else if c = 110 then
        if rest.take 3 = [117, 108, 108] then some (.null, rest.drop 3) else none
      else if c = 116 then
        if rest.take 3 = [114, 117, 101] then some (.bool true, rest.drop 3) else none
      else if c = 102 then
        if rest.take 4 = [97, 108, 115, 101] then some (.bool false, rest.drop 4) else none
      else parseNumberFrom (c :: rest)
def parseItems : Nat → PyStr → Option (List Json × PyStr)
  | 0, _ => none
  | f + 1, cs =>
    match parseVal f cs with
    | none => none
    | some (x, r) =>
      match r.dropWhile isWs with
      | 44 :: r2 => (parseItems f r2).map (fun p => (x :: p.1, p.2))
      | 93 :: r2 => some ([x], r2)
      | _ => none
def parseMembers : Nat → PyStr → Option (List (PyStr × Json) × PyStr)
  | 0, _ => none
  | f + 1, cs =>
    match cs.dropWhile isWs with
    | 34 :: r =>
      match parseStringBody r with
      | none => none
      | some (k, r1) =>
        match r1.dropWhile isWs with
        | 58 :: r2 =>
          match parseVal f r2 with
          | none => none
          | some (v, r3) =>
            match r3.dropWhile isWs with
            | 44 :: r4 => (parseMembers f r4).map (fun p => ((k, v) :: p.1, p.2))
            | 125 :: r4 => some ([(k, v)], r4)
            | _ => none
        | _ => none
    | _ => none
end

/-- `json.loads`: parse one value, allow surrounding whitespace, require
end of input. -/
def json_loads (s : PyStr) : Option Json :=
  match parseVal (2 * s.length + 2) s with
  | none => none
  | some (x, r) => if r.dropWhile isWs = [] then some x else none

/-! ## `decode_jwt` (auditor.py) -/

/-- One segment's journey: Base64URL decode, UTF-8 decode, JSON parse. -/
def decodeSegment (s : PyStr) : Option Json := do
  json_loads (← utf8Decode (← base64url_decode s))

/-- The wrong-segment-count `ValueError` message (auditor.py line 31,
wrapped by the outer handler's `"JWT解码失败: "` prefix). -/
def errParts : PyStr := pystr "JWT解码失败: JWT必须有header.payload.signature三部分"

/-- Abbreviated message for a failing Base64/UTF-8/JSON segment decode
(the Python code wraps the inner exception's text; only non-emptiness
matters to the claims). -/
def errSegment : PyStr := pystr "JWT解码失败: 段解码错误"

/-- `decode_jwt(token)`: split on `'.'` into exactly three parts, decode
the first two as Base64URL/UTF-8/JSON, return the third verbatim.
`.error` models the raised `ValueError`. -/
def decode_jwt (token : PyStr) : Except PyStr (Json × Json × PyStr) :=
  match pySplitDot token with
  | [p0, p1, p2] =>
    match decodeSegment p0 with
    | none => .error errSegment
    | some header =>
      match decodeSegment p1 with
      | none => .error errSegment
      | some payload => .ok (header, payload, p2)
  | _ => .error errParts

/-! ## Findings and severities -/

/-- The five severity strings used by the findings and the scorer. -/
inductive Severity where
  | CRITICAL | HIGH | MEDIUM | LOW | INFO
deriving DecidableEq

/-- One detector's result dict.  Optional keys are `Option`-typed;
`cvss_tenths` holds the CVSS score ×10 (9.1 → 91) to avoid floats. -/
structure Finding where
  detector : PyStr
  vulnerable : Bool
  severity : Severity
  description : PyStr
  recommendation : Option PyStr := none
  exploit_poc : Option PyStr := none
  cvss_tenths : Option Nat := none
  weak_keys_to_check : Option (List PyStr) := none
  cwe : Option PyStr := none
deriving DecidableEq

/-! ## Detector helpers (Python dict/str methods) -/

/-- `header.get('alg', default)`: `none` models the `AttributeError`
raised when the receiver is not a dict. -/
def pyDictGet (j : Json) (k : PyStr) (d : Json) : Option Json :=
  match j with
  | .obj kvs => some ((lookupD kvs k).getD d)
  | _ => none

/-- View a JSON value as a Python `str`; `none` models the
`AttributeError` of calling a `str` method on a non-string. -/
def asPyStr : Json → Option PyStr
  | .str s => some s
  | _ => none

/-- `str.lower()` (ASCII range; see module comment). -/
def pyLower (s : PyStr) : PyStr := s.map (fun c => if 65 ≤ c ∧ c ≤ 90 then c + 32 else c)

/-- `str.upper()` (ASCII range; see module comment). -/
def pyUpper (s : PyStr) : PyStr := s.map (fun c => if 97 ≤ c ∧ c ≤ 122 then c - 32 else c)

/-- `str.startswith(pre)`. -/
def pyStartsWith (pre s : PyStr) : Bool := decide (pre = s.take pre.length)

/-- `header.get('alg', '')` followed by the `str`-method access, as both
detectors perform it: `some a` when the lookup produced a string (or the
key was absent), `none` when the detector raises. -/
def algString (header : Json) : Option PyStr := do
  asPyStr (← pyDictGet header (pystr "alg") (.str []))

/-! ## none_algorithm.py -/

/-- The Base64URL encoder of `_generate_exploit_poc`: compact dumps,
UTF-8 encode, `urlsafe_b64encode`, strip `'='` padding. -/
def base64url_encode (data : Json) : PyStr :=
  rstripEq (urlsafe_b64encode (utf8Encode (json_dumps data)))

/-- `_generate_exploit_poc(header, payload)`: copy the header, force
`alg` to `"none"`, and build `"<header_b64>.<payload_b64>."`.  (The
non-dict fallback is unreachable: the caller only gets here after a
successful `header.get`.) -/
def generate_exploit_poc (header payload : Json) : PyStr :=
  let exploit_header :=
    match header with
    | .obj kvs => Json.obj (dInsert kvs (pystr "alg") (.str (pystr "none")))
    | other => other
  base64url_encode exploit_header ++ 46 :: base64url_encode payload ++ [46]

/-- `none_algorithm.detect`. -/
def none_algorithm_detect (header payload : Json) (_signature : PyStr) : Option Finding := do
  let algorithm := pyLower (← algString header)
  if algorithm = pystr "none" then
    some { vulnerable := true
           severity := .CRITICAL
           detector := pystr "NoneAlgorithm"
           description := pystr "JWT使用\"none\"算法，攻击者可完全绕过签名验证"
           recommendation := some (pystr "立即停止使用none算法，改用HS256/RS256等安全算法")
           exploit_poc := some (generate_exploit_poc header payload)
           cvss_tenths := some 91
           cwe := some (pystr "CWE-303") }
  else
    some { vulnerable := false
           severity := .LOW
           detector := pystr "NoneAlgorithm"
           description := pystr "未检测到None算法漏洞"
           cvss_tenths := some 0 }

/-! ## weak_key.py -/

/-- The fixed advisory list of commonly weak shared secrets. -/
def WEAK_SECRETS : List PyStr :=
  [pystr "secret", pystr "password", pystr "123456", pystr "admin", pystr "token",
   pystr "key", pystr "jwt", pystr "changeme", pystr "supersecret", pystr "masterkey",
   pystr "", pystr "null", pystr "none", pystr "undefined", pystr "test"]

/-- `weak_key.detect`. -/
def weak_key_detect (header _payload : Json) (_signature : PyStr) : Option Finding := do
  let algorithm := pyUpper (← algString header)
  if pyStartsWith (pystr "HS") algorithm then
    some { vulnerable := false
           severity := .MEDIUM
           detector := pystr "WeakKey"
           description := pystr "使用HMAC算法，建议检查密钥强度"
           recommendation := some (pystr "使用强随机密钥，长度至少32字符")
           weak_keys_to_check := some (WEAK_SECRETS.take 5)
           cvss_tenths := some 75 }
  else
    some { vulnerable := false
           severity := .INFO
           detector := pystr "WeakKey"
           description := pystr "非HMAC算法，弱密钥检测不适用"
           cvss_tenths := some 0 }

/-! ## JWTAuditor.audit -/

/-- A detector as the audit loop sees it: `none` models both a raised
exception (caught by the per-detector handler) and a falsy result (the
`if result:` guard); either way the finding is skipped. -/
abbrev Detector := Json → Json → PyStr → Option Finding

/-- The findings collected by the per-detector loop. -/
def runDetectors (ds : List Detector) (h p : Json) (s : PyStr) : List Finding :=
  ds.filterMap (fun d => d h p s)

/-- One step of the scoring loop: `(score, critical_vulns, high_vulns)`. -/
def scoreAccum (acc : Int × Nat × Nat) (f : Finding) : Int × Nat × Nat :=
  if f.vulnerable then
    match f.severity with
    | .CRITICAL => (acc.1 - 40, acc.2.1 + 1, acc.2.2)
    | .HIGH => (acc.1 - 30, acc.2.1, acc.2.2 + 1)
    | .MEDIUM => (acc.1 - 20, acc.2.1, acc.2.2)
    | .LOW => (acc.1 - 10, acc.2.1, acc.2.2)
    | .INFO => acc
  else acc

/-- The scoring loop's result over a findings list, from `(100, 0, 0)`. -/
def scoreLoop (findings : List Finding) : Int × Nat × Nat :=
  findings.foldl scoreAccum (100, 0, 0)

/-- `security_score`: the loop's score floored at 0 (`max(0, score)`). -/
def securityScore (findings : List Finding) : Int := max 0 (scoreLoop findings).1

/-- `summary.status`: `'SAFE'` iff the final score is at least 80. -/
def statusOf (findings : List Finding) : PyStr :=
  if 80 ≤ securityScore findings then pystr "SAFE" else pystr "UNSAFE"

/-- The `summary` sub-dict of a successful audit. -/
structure Summary where
  total_checks : Nat
  vulnerabilities_found : Nat
  critical_vulnerabilities : Nat
  high_vulnerabilities : Nat
  status : PyStr
deriving DecidableEq

/-- The audit result dict: the decode-failure shape carries only the
error and the original token; the success shape carries the decoded
fields, findings, score and summary. -/
inductive AuditResult where
  | failure (error : PyStr) (jwt_token : PyStr)
  | ok (jwt_token jwt_short : PyStr) (header payload : Json) (signature_length : Nat)
      (findings : List Finding) (security_score : Int) (summary : Summary)

/-- `jwt_short`: first 30 characters plus `"..."` when truncated. -/
def jwtShort (t : PyStr) : PyStr := if 30 < t.length then t.take 30 ++ pystr "..." else t

/-- `JWTAuditor.audit(jwt_token)` over a given detector list (the registry
is loaded from a directory listing, so its order is not fixed here). -/
def audit (detectors : List Detector) (jwt_token : PyStr) : AuditResult :=
  match decode_jwt jwt_token with
  | .error e => .failure e jwt_token
  | .ok (header, payload, signature) =>
    let findings := runDetectors detectors header payload signature
    let acc := scoreLoop findings
    let security_score := max 0 acc.1
    .ok jwt_token (jwtShort jwt_token) header payload signature.length findings security_score
      { total_checks := findings.length
        vulnerabilities_found := (findings.filter (fun f => f.vulnerable)).length
        critical_vulnerabilities := acc.2.1
        high_vulnerabilities := acc.2.2
        status := if 80 ≤ security_score then pystr "SAFE" else pystr "UNSAFE" }

/-! ## Mutation model for the detectors (claim C10)

The pure embedding above cannot express "the detector does not mutate its
argument dicts", so the two detectors are replayed here against an
explicit heap of dict objects.  `header.copy()` allocates a fresh dict at
the end of the heap; `d[k] = v` writes through a reference.  The frame
theorem then states that the header and payload references are untouched. -/

/-- A heap of Python dict objects; references are indices. -/
abbrev Heap := List (List (PyStr × Json))

/-- Dereference (`none`-free for the in-range references the theorems use). -/
def heapGet (h : Heap) (r : Nat) : List (PyStr × Json) := (h.get? r).getD []

/-- `d.copy()`: allocate a fresh dict holding the same pairs. -/
def heapCopy (h : Heap) (r : Nat) : Heap × Nat := (h ++ [heapGet h r], h.length)

/-- `d[k] = v` through a reference. -/
def heapSet (h : Heap) (r : Nat) (k : PyStr) (v : Json) : Heap :=
  h.set r (dInsert (heapGet h r) k v)

/-- `_generate_exploit_poc` with the header and payload as heap references:
the only mutation is `exploit_header['alg'] = 'none'` on the fresh copy. -/
def generate_exploit_poc_heap (h : Heap) (hRef pRef : Nat) : Heap × PyStr :=
  let step := heapCopy h hRef
  let h2 := heapSet step.1 step.2 (pystr "alg") (.str (pystr "none"))
  (h2, base64url_encode (Json.obj (heapGet h2 step.2)) ++
       46 :: base64url_encode (Json.obj (heapGet h2 pRef)) ++ [46])

/-- `none_algorithm.detect` against the heap (same control flow as the
pure embedding; the PoC branch threads the heap through the copy/write). -/
def none_algorithm_detect_heap (h : Heap) (hRef pRef : Nat) (_signature : PyStr) :
    Heap × Option Finding :=
  match algString (Json.obj (heapGet h hRef)) with
  | none => (h, none)
  | some a =>
    if pyLower a = pystr "none" then
      let step := generate_exploit_poc_heap h hRef pRef
      (step.1, some { vulnerable := true
                      severity := .CRITICAL
                      detector := pystr "NoneAlgorithm"
                      description := pystr "JWT使用\"none\"算法，攻击者可完全绕过签名验证"
                      recommendation := some (pystr "立即停止使用none算法，改用HS256/RS256等安全算法")
                      exploit_poc := some step.2
                      cvss_tenths := some 91
                      cwe := some (pystr "CWE-303") })
    else
      (h, some { vulnerable := false
                 severity := .LOW
                 detector := pystr "NoneAlgorithm"
                 description := pystr "未检测到None算法漏洞"
                 cvss_tenths := some 0 })

/-- `weak_key.detect` against the heap: it only reads, so the heap is
returned unchanged and the finding agrees with the pure embedding. -/
def weak_key_detect_heap (h : Heap) (hRef pRef : Nat) (signature : PyStr) :
    Heap × Option Finding :=
  (h, weak_key_detect (Json.obj (heapGet h hRef)) (Json.obj (heapGet h pRef)) signature)

/-! ## Late definitions used by the development and the claims -/

/-- A continuation that cannot extend a number literal: empty or starting
with a non-digit that is not `.`/`e`/`E`. -/
def numSafe (r : PyStr) : Prop :=
  ∀ c t, r = c :: t → isDigit c = false ∧ ¬c = 46 ∧ ¬c = 101 ∧ ¬c = 69

mutual
/-- Fuel bound for parsing a serialized value. -/
def jsize : Json → Nat
  | .null => 1
  | .bool _ => 1
  | .num _ => 1
  | .str _ => 1
  | .arr xs => 1 + jsizeArr xs
  | .obj kvs => 1 + jsizeObj kvs
def jsizeArr : List Json → Nat
  | [] => 1
  | x :: xs => 1 + jsize x + jsizeArr xs
def jsizeObj : List (PyStr × Json) → Nat
  | [] => 1
  | (_, v) :: kvs => 1 + jsize v + jsizeObj kvs
end

/-- A code point as produced by strict UTF-8 decoding: in range and not a
surrogate. -/
def okc (c : Nat) : Prop := c < 1114112 ∧ ¬(55296 ≤ c ∧ c < 57344)

/-- The three-part invariant of `py_scanstring` outputs on surrogate-free
input: the parsed prefix is a well-formed Python string, the remaining
input is drawn from the original input, and a low surrogate heads the
output only when the input itself opens with that code point's `\u`
escape. -/
def psbWF (cs s r : PyStr) : Prop :=
  strOkB s = true ∧ (∀ x ∈ r, x ∈ cs) ∧
  (∀ c2 s2, s = c2 :: s2 → 56320 ≤ c2 → c2 < 57344 →
    ∃ a b c d t, cs = 92 :: 117 :: a :: b :: c :: d :: t ∧ hex4Val a b c d = some c2)

/-! ## The scoring policy as the specification words it -/

/-- The fixed penalty table of the spec: CRITICAL 40, HIGH 30, MEDIUM 20,
LOW 10, INFO 0. -/
def specPenalty : Severity → Int
  | .CRITICAL => 40
  | .HIGH => 30
  | .MEDIUM => 20
  | .LOW => 10
  | .INFO => 0

/-- A finding's contribution: its severity's penalty when vulnerable,
nothing otherwise. -/
def specFindingPenalty (f : Finding) : Int :=
  if f.vulnerable then specPenalty f.severity else 0

/-- Accumulated penalties of a findings list. -/
def specTotalPenalty (fs : List Finding) : Int := (fs.map specFindingPenalty).sum

/-- The spec's clamp of the final score into the closed range [0, 100]. -/
def specClamp (n : Int) : Int := max 0 (min 100 n)

/-! ## Concrete values for the claims' closed instances -/

/-- A vulnerable CRITICAL finding (the shape `none_algorithm.detect`
produces on a `none` token). -/
def criticalSample : Finding :=
  { detector := pystr "NoneAlgorithm"
    vulnerable := true
    severity := .CRITICAL
    description := pystr "JWT使用\"none\"算法，攻击者可完全绕过签名验证" }

/-- The decoded header of the all-`none` sample token. -/
def c3header : Json := Json.obj [(pystr "alg", Json.str (pystr "none"))]

/-- The finding `none_algorithm.detect` returns for `c3header` with an
empty payload and signature. -/
def c3finding : Finding :=
  { vulnerable := true
    severity := .CRITICAL
    detector := pystr "NoneAlgorithm"
    description := pystr "JWT使用\"none\"算法，攻击者可完全绕过签名验证"
    recommendation := some (pystr "立即停止使用none算法，改用HS256/RS256等安全算法")
    exploit_poc := some (generate_exploit_poc c3header (Json.obj []))
    cvss_tenths := some 91
    cwe := some (pystr "CWE-303") }

/-! ## Base64 roundtrip lemmas -/

theorem b64UrlChar_ne_61 (n : Nat) : b64UrlChar n ≠ 61 := by
  unfold b64UrlChar; split_ifs <;> omega

theorem b64UrlChar_ne_46 (n : Nat) : b64UrlChar n ≠ 46 := by
  unfold b64UrlChar; split_ifs <;> omega

theorem urlToStd_b64UrlChar_ne_61 (n : Nat) : urlToStd (b64UrlChar n) ≠ 61 := by
  have := b64UrlChar_ne_61 n
  unfold urlToStd; split_ifs <;> omega

theorem b64DigitStd_roundtrip : ∀ n, n < 64 → b64DigitStd (urlToStd (b64UrlChar n)) = some n := by
  decide

theorem b64DigitStd_61 : b64DigitStd 61 = none := by decide

theorem sixbits_lt : ∀ bs : List Nat, (∀ b ∈ bs, b < 256) → ∀ d ∈ sixbits bs, d < 64
  | [], _, d, hd => by simp [sixbits] at hd
  | [b1], h, d, hd => by
    have hb1 := h b1 (by simp)
    simp [sixbits] at hd
    rcases hd with h1 | h1 <;> omega
  | [b1, b2], h, d, hd => by
    have hb1 := h b1 (by simp)
    have hb2 := h b2 (by simp)
    simp [sixbits] at hd
    rcases hd with h1 | h1 | h1 <;> omega
  | b1 :: b2 :: b3 :: b4 :: rest, h, d, hd => by
    have hb1 := h b1 (by simp)
    have hb2 := h b2 (by simp)
    have hb3 := h b3 (by simp)
    simp only [sixbits, List.mem_cons] at hd
    rcases hd with h1 | h1 | h1 | h1 | h1
    · omega
    · omega
    · omega
    · omega
    · exact sixbits_lt (b4 :: rest) (fun b hb => h b (by simp [hb])) d h1
  | [b1, b2, b3], h, d, hd => by
    have hb1 := h b1 (by simp)
    have hb2 := h b2 (by simp)
    have hb3 := h b3 (by simp)
    simp [sixbits] at hd
    rcases hd with h1 | h1 | h1 | h1 <;> omega

theorem b64DecodeDigits_sixbits : ∀ bs : List Nat, (∀ b ∈ bs, b < 256) →
    b64DecodeDigits (sixbits bs) = bs
  | [], _ => by simp [sixbits, b64DecodeDigits]
  | [b1], h => by
    have hb1 := h b1 (by simp)
    simp only [sixbits, b64DecodeDigits]
    congr 1
    omega
  | [b1, b2], h => by
    have hb1 := h b1 (by simp)
    have hb2 := h b2 (by simp)
    simp only [sixbits, b64DecodeDigits]
    congr 1
    · omega
    · congr 1; omega
  | b1 :: b2 :: b3 :: b4 :: rest, h => by
    have hb1 := h b1 (by simp)
    have hb2 := h b2 (by simp)
    have hb3 := h b3 (by simp)
    simp only [sixbits, b64DecodeDigits]
    congr 1
    · omega
    congr 1
    · omega
    congr 1
    · omega
    exact b64DecodeDigits_sixbits (b4 :: rest) (fun b hb => h b (by simp [hb]))
  | [b1, b2, b3], h => by
    have hb1 := h b1 (by simp)
    have hb2 := h b2 (by simp)
    have hb3 := h b3 (by simp)
    simp only [sixbits, b64DecodeDigits]
    congr 1
    · omega
    congr 1
    · omega
    congr 1
    omega

theorem sixbits_length_mod : ∀ bs : List Nat,
    (sixbits bs).length % 4 = (if bs.length % 3 = 0 then 0 else bs.length % 3 + 1)
  | [] => by simp [sixbits]
  | [b1] => by simp [sixbits]
  | [b1, b2] => by simp [sixbits]
  | [b1, b2, b3] => by simp [sixbits]
  | b1 :: b2 :: b3 :: b4 :: rest => by
    have ih := sixbits_length_mod (b4 :: rest)
    simp only [sixbits, List.length_cons] at ih ⊢
    split_ifs at ih ⊢ <;> omega

theorem dropWhile_replicate_append (p : Nat → Bool) (a k : Nat) (l : List Nat) (hp : p a = true) :
    List.dropWhile p (List.replicate k a ++ l) = List.dropWhile p l := by
  induction k with
  | zero => simp
  | succ k ih => simp [List.replicate_succ, List.dropWhile_cons, hp, ih]

theorem rstripEq_append_replicate (x : PyStr) (k : Nat) (hx : ∀ c ∈ x, c ≠ 61) :
    rstripEq (x ++ List.replicate k 61) = x := by
  unfold rstripEq
  rw [List.reverse_append, List.reverse_replicate,
    dropWhile_replicate_append _ 61 k x.reverse (by simp)]
  have : List.dropWhile (fun c => c = 61) x.reverse = x.reverse := by
    cases hxr : x.reverse with
    | nil => simp
    | cons hd tl =>
      have hmem : hd ∈ x := by
        have : hd ∈ x.reverse := by rw [hxr]; simp
        simpa using this
      simp [List.dropWhile_cons, hx hd hmem]
  rw [this, List.reverse_reverse]

theorem filterMap_b64_digits : ∀ ds : List Nat, (∀ d ∈ ds, d < 64) →
    List.filterMap b64DigitStd (ds.map (fun d => urlToStd (b64UrlChar d))) = ds := by
  intro ds
  induction ds with
  | nil => simp
  | cons d ds ih =>
    intro h
    have hd := h d (by simp)
    simp only [List.map_cons, List.filterMap_cons, b64DigitStd_roundtrip d hd]
    rw [ih (fun x hx => h x (by simp [hx]))]

theorem b64keep_clean (ds : List Nat) (k : Nat) (hd : ∀ d ∈ ds, d < 64) :
    b64keep (ds.map (fun d => urlToStd (b64UrlChar d)) ++ List.replicate k 61) =
      ds.map (fun d => urlToStd (b64UrlChar d)) ++ List.replicate k 61 := by
  unfold b64keep
  rw [List.filter_eq_self]
  intro c hc
  rcases List.mem_append.mp hc with hc | hc
  · rcases List.mem_map.mp hc with ⟨d, hdm, rfl⟩
    simp [b64DigitStd_roundtrip d (hd d hdm)]
  · have : c = 61 := List.eq_of_mem_replicate hc
    simp [this]

theorem b64data_clean (ds : List Nat) (k : Nat) (hd : ∀ d ∈ ds, d < 64) :
    b64data (ds.map (fun d => urlToStd (b64UrlChar d)) ++ List.replicate k 61) = ds := by
  unfold b64data
  rw [b64keep_clean ds k hd, List.filterMap_append, filterMap_b64_digits ds hd]
  have : List.filterMap b64DigitStd (List.replicate k 61) = [] := by
    induction k with
    | zero => simp
    | succ k ih => simp [List.replicate_succ, List.filterMap_cons, b64DigitStd_61, ih]
  simp [this]

theorem b64pads_clean (ds : List Nat) (k : Nat) (hd : ∀ d ∈ ds, d < 64) :
    b64pads (ds.map (fun d => urlToStd (b64UrlChar d)) ++ List.replicate k 61) = k := by
  unfold b64pads
  rw [b64keep_clean ds k hd, List.filter_append]
  have h1 : List.filter (fun c => decide (c = 61)) (ds.map (fun d => urlToStd (b64UrlChar d))) = [] := by
    rw [List.filter_eq_nil_iff]
    intro c hc
    rcases List.mem_map.mp hc with ⟨d, _, rfl⟩
    simp [urlToStd_b64UrlChar_ne_61 d]
  have h2 : List.filter (fun c => decide (c = 61)) (List.replicate k 61) = List.replicate k 61 := by
    rw [List.filter_eq_self]
    intro c hc
    have : c = 61 := List.eq_of_mem_replicate hc
    simp [this]
  simp only [h1, h2]
  simp

theorem b64decode_clean (ds : List Nat) (k : Nat) (hd : ∀ d ∈ ds, d < 64)
    (hlen : (ds.length + k) % 4 = 0) (hne1 : ds.length % 4 ≠ 1) :
    b64decode (ds.map (fun d => urlToStd (b64UrlChar d)) ++ List.replicate k 61) =
      some (b64DecodeDigits ds) := by
  unfold b64decode
  rw [b64data_clean ds k hd, b64pads_clean ds k hd]
  rw [if_neg (by omega), if_neg (by omega)]

theorem b64_roundtrip (bs : List Nat) (h : ∀ b ∈ bs, b < 256) :
    base64url_decode (rstripEq (urlsafe_b64encode bs)) = some bs := by
  unfold urlsafe_b64encode
  rw [rstripEq_append_replicate _ _ (by
    intro c hc
    rcases List.mem_map.mp hc with ⟨d, _, rfl⟩
    exact b64UrlChar_ne_61 d)]
  unfold base64url_decode b64AddPad
  have hlt := sixbits_lt bs h
  have hmod := sixbits_length_mod bs
  have hlen : ((sixbits bs).map b64UrlChar).length = (sixbits bs).length := by simp
  have hmap : ((sixbits bs).map b64UrlChar).map urlToStd =
      (sixbits bs).map (fun d => urlToStd (b64UrlChar d)) := by
    rw [List.map_map]; rfl
  rw [hlen]
  by_cases h0 : (sixbits bs).length % 4 = 0
  · rw [if_neg (by omega), hmap]
    have := b64decode_clean (sixbits bs) 0 hlt (by omega) (by omega)
    simp only [List.replicate_zero, List.append_nil] at this
    rw [this, b64DecodeDigits_sixbits bs h]
  · rw [if_pos (by omega)]
    rw [List.map_append, hmap]
    have hrep : (List.replicate (4 - (sixbits bs).length % 4) 61).map urlToStd =
        List.replicate (4 - (sixbits bs).length % 4) 61 := by
      rw [List.map_replicate]; rfl
    rw [hrep]
    have hk : ((sixbits bs).length + (4 - (sixbits bs).length % 4)) % 4 = 0 := by omega
    have hne1 : (sixbits bs).length % 4 ≠ 1 := by
      split_ifs at hmod <;> omega
    rw [b64decode_clean (sixbits bs) _ hlt hk hne1, b64DecodeDigits_sixbits bs h]

theorem mem_rstripEq {c : Nat} {s : PyStr} (h : c ∈ rstripEq s) : c ∈ s := by
  unfold rstripEq at h
  rw [List.mem_reverse] at h
  have := (List.dropWhile_sublist (fun c => c = 61)).mem h
  simpa using this

theorem not_dot_base64url_encode (x : Json) : 46 ∉ base64url_encode x := by
  intro hmem
  have h2 := mem_rstripEq hmem
  unfold urlsafe_b64encode at h2
  rcases List.mem_append.mp h2 with h3 | h3
  · rcases List.mem_map.mp h3 with ⟨d, _, heq⟩
    exact b64UrlChar_ne_46 d heq
  · have := List.eq_of_mem_replicate h3
    omega



/-! ## UTF-8 lemmas (ASCII fragment, which is all `json.dumps` emits) -/

theorem utf8Decode_ascii : ∀ bs : List Nat, (∀ b ∈ bs, b < 128) → utf8Decode bs = some bs
  | [], _ => rfl
  | [b], h => by
    have hb : b < 128 := h b (by simp)
    simp [utf8Decode, hb]
  | [b, b2], h => by
    have hb : b < 128 := h b (by simp)
    have ih := utf8Decode_ascii [b2] (fun x hx => h x (List.mem_cons_of_mem b hx))
    rw [utf8Decode, if_pos hb, ih]
    rfl
  | [b, b2, b3], h => by
    have hb : b < 128 := h b (by simp)
    have ih := utf8Decode_ascii [b2, b3] (fun x hx => h x (List.mem_cons_of_mem b hx))
    rw [utf8Decode, if_pos hb, ih]
    rfl
  | b :: b2 :: b3 :: b4 :: bs, h => by
    have hb : b < 128 := h b (by simp)
    have ih := utf8Decode_ascii (b2 :: b3 :: b4 :: bs) (fun x hx => h x (List.mem_cons_of_mem b hx))
    rw [utf8Decode, if_pos hb, ih]
    rfl

theorem utf8Encode_ascii : ∀ s : PyStr, (∀ c ∈ s, c < 128) → utf8Encode s = s
  | [], _ => rfl
  | c :: s, h => by
    have hc : c < 128 := h c (List.mem_cons_self c s)
    have ih := utf8Encode_ascii s (fun x hx => h x (List.mem_cons_of_mem c hx))
    unfold utf8Encode utf8EncodeChar
    rw [if_pos hc, ih]
    rfl

/-! ## `json.dumps` output is printable ASCII -/

theorem hexDigit_range (d : Nat) (h : d < 16) : 48 ≤ hexDigit d ∧ hexDigit d ≤ 102 := by
  unfold hexDigit; split_ifs <;> omega

theorem hex4_range (n : Nat) : ∀ c ∈ hex4 n, 48 ≤ c ∧ c ≤ 102 := by
  intro c hc
  simp only [hex4, List.mem_cons, List.not_mem_nil, or_false] at hc
  rcases hc with rfl | rfl | rfl | rfl <;>
    exact hexDigit_range _ (Nat.mod_lt _ (by omega))

theorem escapeChar_range : ∀ c : Nat, ∀ d ∈ escapeChar c, 32 ≤ d ∧ d ≤ 126 := by
  intro c d hd
  have hx : ∀ n, ∀ e ∈ hex4 n, 48 ≤ e ∧ e ≤ 102 := hex4_range
  unfold escapeChar at hd
  split_ifs at hd with h1 h2 h3 h4 h5 h6 h7 h8 h9
  all_goals simp only [List.mem_cons, List.mem_append, List.cons_append, List.nil_append,
    List.not_mem_nil, or_false] at hd
  all_goals try casesm* _ ∨ _
  all_goals first
    | omega
    | (have hcb := hx _ d (by assumption); omega)

theorem escBody_range : ∀ s : PyStr, ∀ d ∈ escBody s, 32 ≤ d ∧ d ≤ 126
  | [], d, hd => by simp [escBody] at hd
  | c :: s, d, hd => by
    rw [escBody] at hd
    rcases List.mem_append.mp hd with hd | hd
    · exact escapeChar_range c d hd
    · exact escBody_range s d hd

theorem natStrAux_digits (n : Nat) : ∀ c ∈ natStrAux n, 48 ≤ c ∧ c ≤ 57 := by
  induction n using Nat.strong_induction_on with
  | _ n ih =>
    intro c hc
    rw [natStrAux] at hc
    split_ifs at hc with h
    · simp at hc
    · rcases List.mem_append.mp hc with hc | hc
      · exact ih (n / 10) (Nat.div_lt_self (by omega) (by omega)) c hc
      · simp at hc; omega

theorem intStr_range (n : Int) : ∀ c ∈ intStr n, 45 ≤ c ∧ c ≤ 57 := by
  intro c hc
  unfold intStr natStr at hc
  split_ifs at hc with h1 h2 h3
  · simp only [List.mem_cons, List.not_mem_nil, or_false] at hc
    rcases hc with rfl | rfl <;> omega
  · rcases List.mem_cons.mp hc with rfl | hc
    · omega
    · have := natStrAux_digits _ c hc; omega
  · simp only [List.mem_cons, List.not_mem_nil, or_false] at hc
    omega
  · have := natStrAux_digits _ c hc; omega

mutual
theorem dumps_range : ∀ x : Json, ∀ c ∈ json_dumps x, 32 ≤ c ∧ c ≤ 126
  | .null, c, hc => by simp only [json_dumps, List.mem_cons, List.not_mem_nil, or_false] at hc; omega
  | .bool true, c, hc => by
    simp only [json_dumps, List.mem_cons, List.not_mem_nil, or_false] at hc; omega
  | .bool false, c, hc => by
    simp only [json_dumps, List.mem_cons, List.not_mem_nil, or_false] at hc; omega
  | .num n, c, hc => by have := intStr_range n c hc; omega
  | .str s, c, hc => by
    have hb := escBody_range s
    rw [json_dumps] at hc
    simp only [List.mem_cons, List.mem_append, List.not_mem_nil, or_false] at hc
    try casesm* _ ∨ _
    all_goals first | omega | (have hcb := hb c (by assumption); omega)
  | .arr [], c, hc => by simp only [json_dumps, List.mem_cons, List.not_mem_nil, or_false] at hc; omega
  | .arr (x :: xs), c, hc => by
    have h1 := dumps_range x
    have h2 := dumpsArrRest_range xs
    rw [json_dumps] at hc
    simp only [List.mem_cons, List.mem_append, List.cons_append, List.nil_append,
      List.not_mem_nil, or_false] at hc
    try casesm* _ ∨ _
    all_goals first
      | omega
      | (have hcb := h1 c (by assumption); omega)
      | (have hcb := h2 c (by assumption); omega)
  | .obj [], c, hc => by simp only [json_dumps, List.mem_cons, List.not_mem_nil, or_false] at hc; omega
  | .obj ((k, v) :: kvs), c, hc => by
    have h1 := escBody_range k
    have h2 := dumps_range v
    have h3 := dumpsObjRest_range kvs
    rw [json_dumps] at hc
    simp only [List.mem_cons, List.mem_append, List.cons_append, List.nil_append,
      List.not_mem_nil, or_false] at hc
    try casesm* _ ∨ _
    all_goals first
      | omega
      | (have hcb := h1 c (by assumption); omega)
      | (have hcb := h2 c (by assumption); omega)
      | (have hcb := h3 c (by assumption); omega)
theorem dumpsArrRest_range : ∀ xs : List Json, ∀ c ∈ dumpsArrRest xs, 32 ≤ c ∧ c ≤ 126
  | [], c, hc => by simp [dumpsArrRest] at hc
  | x :: xs, c, hc => by
    have h1 := dumps_range x
    have h2 := dumpsArrRest_range xs
    rw [dumpsArrRest] at hc
    simp only [List.mem_cons, List.mem_append, List.cons_append, List.nil_append,
      List.not_mem_nil, or_false] at hc
    try casesm* _ ∨ _
    all_goals first
      | omega
      | (have hcb := h1 c (by assumption); omega)
      | (have hcb := h2 c (by assumption); omega)
theorem dumpsObjRest_range : ∀ kvs : List (PyStr × Json), ∀ c ∈ dumpsObjRest kvs, 32 ≤ c ∧ c ≤ 126
  | [], c, hc => by simp [dumpsObjRest] at hc
  | (k, v) :: kvs, c, hc => by
    have h1 := escBody_range k
    have h2 := dumps_range v
    have h3 := dumpsObjRest_range kvs
    rw [dumpsObjRest] at hc
    simp only [List.mem_cons, List.mem_append, List.cons_append, List.nil_append,
      List.not_mem_nil, or_false] at hc
    try casesm* _ ∨ _
    all_goals first
      | omega
      | (have hcb := h1 c (by assumption); omega)
      | (have hcb := h2 c (by assumption); omega)
      | (have hcb := h3 c (by assumption); omega)
end


/-! ## String escape/parse roundtrip -/

theorem hexVal_hexDigit : ∀ d, d < 16 → hexVal (hexDigit d) = some d := by decide

theorem hex4Val_hex4 (n : Nat) (h : n < 65536) :
    hex4Val (hexDigit (n / 4096 % 16)) (hexDigit (n / 256 % 16)) (hexDigit (n / 16 % 16))
      (hexDigit (n % 16)) = some n := by
  have h1 := hexVal_hexDigit (n / 4096 % 16) (by omega)
  have h2 := hexVal_hexDigit (n / 256 % 16) (by omega)
  have h3 := hexVal_hexDigit (n / 16 % 16) (by omega)
  have h4 := hexVal_hexDigit (n % 16) (by omega)
  simp only [hex4Val, h1, h2, h3, h4, Option.pure_def, Option.bind_eq_bind, Option.some_bind]
  congr 1
  omega

theorem psb_quote (rest : PyStr) : parseStringBody (34 :: rest) = some ([], rest) := rfl

theorem psb_lit (c : Nat) (rest : PyStr) (h1 : ¬c = 34) (h2 : ¬c = 92) (h3 : ¬c < 32) :
    parseStringBody (c :: rest) = (parseStringBody rest).map (fun p => (c :: p.1, p.2)) := by
  rw [parseStringBody]
  · rw [if_neg h3]
  · omega
  · intro a b c1 d a2 b2 c2 d2 rest2 hc
    exact absurd hc h2
  · intro a b c1 d rest1 hc
    exact absurd hc h2
  · intro e rest1 hc
    exact absurd hc h2

theorem psb_esc (e : Nat) (rest : PyStr) (v : Nat) (hv : escVal e = some v) (h117 : ¬e = 117) :
    parseStringBody (92 :: e :: rest) = (parseStringBody rest).map (fun p => (v :: p.1, p.2)) := by
  rw [parseStringBody]
  · rw [hv]
  · intro a b c d a2 b2 c2 d2 rest2 he _
    exact h117 he
  · intro a b c d rest1 he _
    exact h117 he

theorem psb_u_nondeep (a b c d : Nat) (R : PyStr) (n : Nat)
    (hv : hex4Val a b c d = some n)
    (hnd : ∀ a2 b2 c2 d2 rest2, R ≠ 92 :: 117 :: a2 :: b2 :: c2 :: d2 :: rest2) :
    parseStringBody (92 :: 117 :: a :: b :: c :: d :: R) =
      (parseStringBody R).map (fun p => (n :: p.1, p.2)) := by
  rw [parseStringBody]
  · rw [hv]
  · intro a2 b2 c2 d2 rest2 heq
    exact hnd a2 b2 c2 d2 rest2 heq

theorem psb_u_deep_pair (a b c d a2 b2 c2 d2 : Nat) (rest2 : PyStr) (n m : Nat)
    (hv : hex4Val a b c d = some n) (hhi : 55296 ≤ n ∧ n < 56320)
    (hv2 : hex4Val a2 b2 c2 d2 = some m) (hlo : 56320 ≤ m ∧ m < 57344) :
    parseStringBody (92 :: 117 :: a :: b :: c :: d :: 92 :: 117 :: a2 :: b2 :: c2 :: d2 :: rest2) =
      (parseStringBody rest2).map
        (fun p => ((65536 + (n - 55296) * 1024 + (m - 56320)) :: p.1, p.2)) := by
  rw [parseStringBody]
  simp only [hv, hv2, if_pos hhi, if_pos hlo]

theorem psb_u_deep_nopair (a b c d a2 b2 c2 d2 : Nat) (rest2 : PyStr) (n m : Nat)
    (hv : hex4Val a b c d = some n)
    (hv2 : hex4Val a2 b2 c2 d2 = some m) (hnlo : ¬(56320 ≤ m ∧ m < 57344)) :
    parseStringBody (92 :: 117 :: a :: b :: c :: d :: 92 :: 117 :: a2 :: b2 :: c2 :: d2 :: rest2) =
      (parseStringBody (92 :: 117 :: a2 :: b2 :: c2 :: d2 :: rest2)).map
        (fun p => (n :: p.1, p.2)) := by
  rw [parseStringBody]
  by_cases hhi : 55296 ≤ n ∧ n < 56320
  · simp only [hv, hv2, if_pos hhi, if_neg hnlo]
  · simp only [hv, if_neg hhi]

theorem psb_u_deep_nothi (a b c d a2 b2 c2 d2 : Nat) (rest2 : PyStr) (n : Nat)
    (hv : hex4Val a b c d = some n) (hnhi : ¬(55296 ≤ n ∧ n < 56320)) :
    parseStringBody (92 :: 117 :: a :: b :: c :: d :: 92 :: 117 :: a2 :: b2 :: c2 :: d2 :: rest2) =
      (parseStringBody (92 :: 117 :: a2 :: b2 :: c2 :: d2 :: rest2)).map
        (fun p => (n :: p.1, p.2)) := by
  rw [parseStringBody]
  simp only [hv, if_neg hnhi]

theorem psb_u_nothi (a b c d : Nat) (R : PyStr) (n : Nat)
    (hv : hex4Val a b c d = some n) (hnhi : ¬(55296 ≤ n ∧ n < 56320)) :
    parseStringBody (92 :: 117 :: a :: b :: c :: d :: R) =
      (parseStringBody R).map (fun p => (n :: p.1, p.2)) := by
  rcases R with _ | ⟨r1, _ | ⟨r2, _ | ⟨r3, _ | ⟨r4, _ | ⟨r5, _ | ⟨r6, rr⟩⟩⟩⟩⟩⟩
  · exact psb_u_nondeep a b c d [] n hv (by intro _ _ _ _ _ h; simp at h)
  · exact psb_u_nondeep a b c d [r1] n hv (by intro _ _ _ _ _ h; simp at h)
  · exact psb_u_nondeep a b c d [r1, r2] n hv (by intro _ _ _ _ _ h; simp at h)
  · exact psb_u_nondeep a b c d [r1, r2, r3] n hv (by intro _ _ _ _ _ h; simp at h)
  · exact psb_u_nondeep a b c d [r1, r2, r3, r4] n hv (by intro _ _ _ _ _ h; simp at h)
  · exact psb_u_nondeep a b c d [r1, r2, r3, r4, r5] n hv (by intro _ _ _ _ _ h; simp at h)
  · by_cases h92 : r1 = 92 ∧ r2 = 117
    · obtain ⟨rfl, rfl⟩ := h92
      exact psb_u_deep_nothi a b c d r3 r4 r5 r6 rr n hv hnhi
    · refine psb_u_nondeep a b c d _ n hv ?_
      intro a2 b2 c2 d2 rest2 heq
      rw [List.cons.injEq, List.cons.injEq] at heq
      exact h92 ⟨heq.1, heq.2.1⟩

theorem psb_u_hi (a b c d : Nat) (R : PyStr) (n : Nat)
    (hv : hex4Val a b c d = some n) (hhi : 55296 ≤ n ∧ n < 56320)
    (hsafe : (∃ e t, R = e :: t ∧ (¬e = 92 ∨ ∃ e2 t2, t = e2 :: t2 ∧ ¬e2 = 117)) ∨
             (∃ h1 h2 h3 h4 t m, R = 92 :: 117 :: h1 :: h2 :: h3 :: h4 :: t ∧
               hex4Val h1 h2 h3 h4 = some m ∧ ¬(56320 ≤ m ∧ m < 57344))) :
    parseStringBody (92 :: 117 :: a :: b :: c :: d :: R) =
      (parseStringBody R).map (fun p => (n :: p.1, p.2)) := by
  rcases hsafe with ⟨e, t, rfl, hcond⟩ | ⟨h1, h2, h3, h4, t, m, rfl, hm, hnlo⟩
  · refine psb_u_nondeep a b c d _ n hv ?_
    intro a2 b2 c2 d2 rest2 heq
    rw [List.cons.injEq] at heq
    rcases hcond with he | ⟨e2, t2, rfl, he2⟩
    · exact he heq.1
    · rw [List.cons.injEq] at heq
      exact he2 heq.2.1
  · exact psb_u_deep_nopair a b c d h1 h2 h3 h4 t n m hv hm hnlo

/-- Destructuring `strOkB` on a cons. -/
theorem strOkB_cons {c : Nat} {tail : PyStr} (h : strOkB (c :: tail) = true) :
    c < 1114112 ∧ strOkB tail = true ∧
      (∀ c2 s3, tail = c2 :: s3 → ¬(55296 ≤ c ∧ c < 56320 ∧ 56320 ≤ c2 ∧ c2 < 57344)) := by
  cases tail with
  | nil =>
    simp only [strOkB, decide_eq_true_eq] at h
    exact ⟨h, rfl, fun c2 s3 hcs => by cases hcs⟩
  | cons c2 s3 =>
    rw [strOkB] at h
    split_ifs at h with hcond
    refine ⟨hcond.1, h, ?_⟩
    intro c2' s3' heq hcon
    injection heq with e1 e2
    subst e1
    exact hcond.2 hcon

/-- `escapeChar` on the seven short-escape characters. -/
theorem escapeChar_34 : escapeChar 34 = [92, 34] := rfl

theorem escapeChar_92 : escapeChar 92 = [92, 92] := rfl

theorem escapeChar_8 : escapeChar 8 = [92, 98] := rfl

theorem escapeChar_9 : escapeChar 9 = [92, 116] := rfl

theorem escapeChar_10 : escapeChar 10 = [92, 110] := rfl

theorem escapeChar_12 : escapeChar 12 = [92, 102] := rfl

theorem escapeChar_13 : escapeChar 13 = [92, 114] := rfl

/-- `escapeChar` on a printable ASCII character other than quote/backslash. -/
theorem escapeChar_lit (c : Nat) (hp : 32 ≤ c ∧ c ≤ 126) (h34 : ¬c = 34) (h92 : ¬c = 92) :
    escapeChar c = [c] := by
  unfold escapeChar
  rw [if_neg h34, if_neg h92, if_neg (show ¬c = 8 by omega), if_neg (show ¬c = 9 by omega),
    if_neg (show ¬c = 10 by omega), if_neg (show ¬c = 12 by omega),
    if_neg (show ¬c = 13 by omega), if_pos hp]

/-- `escapeChar` on a non-printable BMP code point. -/
theorem escapeChar_u (c : Nat) (hb : c < 65536) (hnp : ¬(32 ≤ c ∧ c ≤ 126))
    (hs : ¬c = 8 ∧ ¬c = 9 ∧ ¬c = 10 ∧ ¬c = 12 ∧ ¬c = 13) :
    escapeChar c = 92 :: 117 :: hex4 c := by
  unfold escapeChar
  rw [if_neg (show ¬c = 34 by omega), if_neg (show ¬c = 92 by omega),
    if_neg hs.1, if_neg hs.2.1, if_neg hs.2.2.1, if_neg hs.2.2.2.1, if_neg hs.2.2.2.2,
    if_neg hnp, if_pos hb]

/-- `escapeChar` on an astral code point: a surrogate-pair escape. -/
theorem escapeChar_astral (c : Nat) (ha : 65536 ≤ c) :
    escapeChar c = 92 :: 117 :: hex4 (55296 + (c - 65536) / 1024) ++
      (92 :: 117 :: hex4 (56320 + (c - 65536) % 1024)) := by
  unfold escapeChar
  rw [if_neg (show ¬c = 34 by omega), if_neg (show ¬c = 92 by omega),
    if_neg (show ¬c = 8 by omega), if_neg (show ¬c = 9 by omega),
    if_neg (show ¬c = 10 by omega), if_neg (show ¬c = 12 by omega),
    if_neg (show ¬c = 13 by omega), if_neg (show ¬(32 ≤ c ∧ c ≤ 126) by omega),
    if_neg (show ¬c < 65536 by omega)]

/-- The first escape block of a well-formed next character never supplies
the low half of a surrogate pair. -/
theorem escBody_headSafe (c2 : Nat) (z : PyStr) (hlt : c2 < 1114112)
    (hnlo : ¬(56320 ≤ c2 ∧ c2 < 57344)) :
    (∃ e t, escapeChar c2 ++ z = e :: t ∧ (¬e = 92 ∨ ∃ e2 t2, t = e2 :: t2 ∧ ¬e2 = 117)) ∨
    (∃ h1 h2 h3 h4 t m, escapeChar c2 ++ z = 92 :: 117 :: h1 :: h2 :: h3 :: h4 :: t ∧
      hex4Val h1 h2 h3 h4 = some m ∧ ¬(56320 ≤ m ∧ m < 57344)) := by
  by_cases h34 : c2 = 34
  · subst h34
    exact Or.inl ⟨92, 34 :: z, by rw [escapeChar_34]; rfl, Or.inr ⟨34, z, rfl, by omega⟩⟩
  by_cases h92 : c2 = 92
  · subst h92
    exact Or.inl ⟨92, 92 :: z, by rw [escapeChar_92]; rfl, Or.inr ⟨92, z, rfl, by omega⟩⟩
  by_cases h8 : c2 = 8
  · subst h8
    exact Or.inl ⟨92, 98 :: z, by rw [escapeChar_8]; rfl, Or.inr ⟨98, z, rfl, by omega⟩⟩
  by_cases h9 : c2 = 9
  · subst h9
    exact Or.inl ⟨92, 116 :: z, by rw [escapeChar_9]; rfl, Or.inr ⟨116, z, rfl, by omega⟩⟩
  by_cases h10 : c2 = 10
  · subst h10
    exact Or.inl ⟨92, 110 :: z, by rw [escapeChar_10]; rfl, Or.inr ⟨110, z, rfl, by omega⟩⟩
  by_cases h12 : c2 = 12
  · subst h12
    exact Or.inl ⟨92, 102 :: z, by rw [escapeChar_12]; rfl, Or.inr ⟨102, z, rfl, by omega⟩⟩
  by_cases h13 : c2 = 13
  · subst h13
    exact Or.inl ⟨92, 114 :: z, by rw [escapeChar_13]; rfl, Or.inr ⟨114, z, rfl, by omega⟩⟩
  by_cases hp : 32 ≤ c2 ∧ c2 ≤ 126
  · exact Or.inl ⟨c2, z, by rw [escapeChar_lit c2 hp h34 h92]; rfl, Or.inl h92⟩
  by_cases hb : c2 < 65536
  · refine Or.inr ⟨_, _, _, _, z, c2, ?_, hex4Val_hex4 c2 hb, hnlo⟩
    rw [escapeChar_u c2 hb hp ⟨h8, h9, h10, h12, h13⟩]
    simp [hex4]
  · refine Or.inr ⟨_, _, _, _,
      92 :: 117 :: hex4 (56320 + (c2 - 65536) % 1024) ++ z,
      55296 + (c2 - 65536) / 1024, ?_, hex4Val_hex4 _ (by omega), by omega⟩
    rw [escapeChar_astral c2 (by omega)]
    simp [hex4]

/-- Full string-body roundtrip: parsing the escaped body of a well-formed
string followed by the closing quote recovers the string. -/
theorem psb_append : ∀ s : PyStr, ∀ rest : PyStr, strOkB s = true →
    parseStringBody (escBody s ++ 34 :: rest) = some (s, rest)
  | [], rest, _ => rfl
  | c :: tail, rest, hok => by
    obtain ⟨hc, htail, hadj⟩ := strOkB_cons hok
    have ih := psb_append tail rest htail
    simp only [escBody, List.append_assoc]
    by_cases h34 : c = 34
    · subst h34
      rw [escapeChar_34]
      simp only [List.cons_append, List.nil_append]
      rw [psb_esc 34 _ 34 rfl (by omega), ih]; rfl
    by_cases h92 : c = 92
    · subst h92
      rw [escapeChar_92]
      simp only [List.cons_append, List.nil_append]
      rw [psb_esc 92 _ 92 rfl (by omega), ih]; rfl
    by_cases h8 : c = 8
    · subst h8
      rw [escapeChar_8]
      simp only [List.cons_append, List.nil_append]
      rw [psb_esc 98 _ 8 rfl (by omega), ih]; rfl
    by_cases h9 : c = 9
    · subst h9
      rw [escapeChar_9]
      simp only [List.cons_append, List.nil_append]
      rw [psb_esc 116 _ 9 rfl (by omega), ih]; rfl
    by_cases h10 : c = 10
    · subst h10
      rw [escapeChar_10]
      simp only [List.cons_append, List.nil_append]
      rw [psb_esc 110 _ 10 rfl (by omega), ih]; rfl
    by_cases h12 : c = 12
    · subst h12
      rw [escapeChar_12]
      simp only [List.cons_append, List.nil_append]
      rw [psb_esc 102 _ 12 rfl (by omega), ih]; rfl
    by_cases h13 : c = 13
    · subst h13
      rw [escapeChar_13]
      simp only [List.cons_append, List.nil_append]
      rw [psb_esc 114 _ 13 rfl (by omega), ih]; rfl
    by_cases hp : 32 ≤ c ∧ c ≤ 126
    · rw [escapeChar_lit c hp h34 h92]
      simp only [List.cons_append, List.nil_append]
      rw [psb_lit c _ h34 h92 (by omega), ih]; rfl
    by_cases hb : c < 65536
    · rw [escapeChar_u c hb hp ⟨h8, h9, h10, h12, h13⟩]
      simp only [hex4, List.cons_append, List.nil_append]
      by_cases hhi : 55296 ≤ c ∧ c < 56320
      · have hsafe : (∃ e t, escBody tail ++ 34 :: rest = e :: t ∧
              (¬e = 92 ∨ ∃ e2 t2, t = e2 :: t2 ∧ ¬e2 = 117)) ∨
            (∃ h1 h2 h3 h4 t m,
              escBody tail ++ 34 :: rest = 92 :: 117 :: h1 :: h2 :: h3 :: h4 :: t ∧
              hex4Val h1 h2 h3 h4 = some m ∧ ¬(56320 ≤ m ∧ m < 57344)) := by
          cases tail with
          | nil => exact Or.inl ⟨34, rest, by simp [escBody], Or.inl (by omega)⟩
          | cons c2 s3 =>
            have hnlo : ¬(56320 ≤ c2 ∧ c2 < 57344) := fun hl =>
              hadj c2 s3 rfl ⟨hhi.1, hhi.2, hl.1, hl.2⟩
            have hc2 : c2 < 1114112 := (strOkB_cons htail).1
            simp only [escBody, List.append_assoc]
            exact escBody_headSafe c2 (escBody s3 ++ 34 :: rest) hc2 hnlo
        rw [psb_u_hi _ _ _ _ _ c (hex4Val_hex4 c hb) hhi hsafe, ih]; rfl
      · rw [psb_u_nothi _ _ _ _ _ c (hex4Val_hex4 c hb) hhi, ih]; rfl
    · rw [escapeChar_astral c (by omega)]
      simp only [hex4, List.cons_append, List.nil_append, List.append_assoc]
      rw [psb_u_deep_pair _ _ _ _ _ _ _ _ _
        (55296 + (c - 65536) / 1024) (56320 + (c - 65536) % 1024)
        (hex4Val_hex4 _ (by omega)) (by omega) (hex4Val_hex4 _ (by omega)) (by omega), ih]
      have hcc : 65536 + (55296 + (c - 65536) / 1024 - 55296) * 1024 +
          (56320 + (c - 65536) % 1024 - 56320) = c := by omega
      rw [hcc]
      rfl


/-! ## Number roundtrip -/

theorem natStrAux_head (n : Nat) (h : n ≠ 0) :
    ∃ d t, natStrAux n = d :: t ∧ 49 ≤ d ∧ d ≤ 57 := by
  induction n using Nat.strong_induction_on with
  | _ n ih =>
    rw [natStrAux, if_neg h]
    by_cases h10 : n / 10 = 0
    · refine ⟨48 + n % 10, [], ?_, by omega, by omega⟩
      rw [natStrAux, if_pos h10]
      simp
    · obtain ⟨d, t, heq, hd1, hd2⟩ := ih (n / 10) (Nat.div_lt_self (by omega) (by omega)) h10
      exact ⟨d, t ++ [48 + n % 10], by rw [heq]; simp, hd1, hd2⟩

theorem digitsVal_natStrAux (n : Nat) : digitsVal (natStrAux n) = n := by
  induction n using Nat.strong_induction_on with
  | _ n ih =>
    rw [natStrAux]
    split_ifs with h
    · simp [digitsVal, h]
    · unfold digitsVal
      rw [List.foldl_append]
      have := ih (n / 10) (Nat.div_lt_self (by omega) (by omega))
      unfold digitsVal at this
      rw [this]
      simp only [List.foldl_cons, List.foldl_nil]
      omega

theorem digitsVal_natStr (n : Nat) : digitsVal (natStr n) = n := by
  unfold natStr
  split_ifs with h
  · simp [digitsVal, h]
  · exact digitsVal_natStrAux n

theorem natStr_ne_nil (n : Nat) : natStr n ≠ [] := by
  unfold natStr
  split_ifs with h
  · simp
  · obtain ⟨d, t, heq, _, _⟩ := natStrAux_head n h
    rw [heq]
    simp

theorem natStr_digits (n : Nat) : ∀ c ∈ natStr n, isDigit c = true := by
  intro c hc
  unfold natStr at hc
  split_ifs at hc with h
  · simp at hc
    simp [isDigit, hc]
  · have := natStrAux_digits n c hc
    simp only [isDigit, Bool.and_eq_true, decide_eq_true_eq]
    omega

theorem takeWhile_digits_append (l r : PyStr) (hl : ∀ c ∈ l, isDigit c = true)
    (hr : numSafe r) : (l ++ r).takeWhile isDigit = l := by
  induction l with
  | nil =>
    cases r with
    | nil => rfl
    | cons c t =>
      simp [List.takeWhile_cons, (hr c t rfl).1]
  | cons c l ih =>
    simp [List.takeWhile_cons, hl c (by simp)]
    rw [ih (fun x hx => hl x (by simp [hx]))]

theorem numSafe_head_check (r : PyStr) (hr : numSafe r) :
    ¬(r.head? = some 46 ∨ r.head? = some 101 ∨ r.head? = some 69) := by
  cases r with
  | nil => simp
  | cons c t =>
    obtain ⟨_, h46, h101, h69⟩ := hr c t rfl
    simp only [List.head?_cons, Option.some.injEq]
    push_neg
    exact ⟨h46, h101, h69⟩

theorem parseNumberFrom_natStr (m : Nat) (rest : PyStr) (hrest : numSafe rest) :
    parseNumberFrom (natStr m ++ rest) =
      some (.num ((digitsVal (natStr m) : Int)), rest) := by
  obtain ⟨d, t, heq, hd1, hd2⟩ : ∃ d t, natStr m = d :: t ∧ 48 ≤ d ∧ d ≤ 57 := by
    unfold natStr
    split_ifs with h
    · exact ⟨48, [], rfl, by omega, by omega⟩
    · obtain ⟨d, t, heq, h1, h2⟩ := natStrAux_head m h
      exact ⟨d, t, heq, by omega, h2⟩
  unfold parseNumberFrom
  rw [heq]
  simp only [List.cons_append, List.head?_cons]
  rw [if_neg (show ¬(some d = some 45) from by simp; omega)]
  have htw : (d :: (t ++ rest)).takeWhile isDigit = d :: t := by
    have h2 := takeWhile_digits_append (d :: t) rest (by rw [← heq]; exact natStr_digits m) hrest
    rw [List.cons_append] at h2
    exact h2
  rw [htw]
  have h45 : ¬d = 45 := by omega
  by_cases hd48 : d = 48
  · subst hd48
    have ht : t = [] := by
      unfold natStr at heq
      split_ifs at heq with h
      · injection heq with _ h2; exact h2.symm
      · obtain ⟨d2, t2, heq2, h1, _⟩ := natStrAux_head m h
        rw [heq2] at heq
        injection heq with e1 _
        omega
    subst ht
    simp [numSafe_head_check rest hrest, digitsVal]
  · simp only [hd48, if_false]
    have hdrop : List.drop (d :: t).length (d :: (t ++ rest)) = rest := by
      simp only [List.length_cons, List.drop_succ_cons, List.drop_left]
    rw [hdrop, if_neg (numSafe_head_check rest hrest),
      if_neg (show ¬(some d = some 45) from by simp [h45])]

theorem parseNumber_intStr (n : Int) (rest : PyStr) (hrest : numSafe rest) :
    parseNumberFrom (intStr n ++ rest) = some (.num n, rest) := by
  by_cases hneg : n < 0
  · have habs : n.natAbs ≠ 0 := by omega
    have h1 : intStr n = 45 :: natStr n.natAbs := by unfold intStr; rw [if_pos hneg]
    obtain ⟨d, t, heqa, hd1, hd2⟩ := natStrAux_head n.natAbs habs
    have heq : natStr n.natAbs = d :: t := by unfold natStr; rw [if_neg habs]; exact heqa
    rw [h1, List.cons_append]
    unfold parseNumberFrom
    simp only [List.head?_cons]
    simp only [if_true, List.tail_cons]
    rw [heq, List.cons_append]
    have htw : (d :: (t ++ rest)).takeWhile isDigit = d :: t := by
      have h2 := takeWhile_digits_append (d :: t) rest
        (by rw [← heq]; exact natStr_digits n.natAbs) hrest
      rw [List.cons_append] at h2
      exact h2
    rw [htw]
    have hd48 : ¬d = 48 := by omega
    simp only [hd48, if_false]
    have hdrop : List.drop (d :: t).length (d :: (t ++ rest)) = rest := by
      simp only [List.length_cons, List.drop_succ_cons, List.drop_left]
    rw [hdrop, if_neg (numSafe_head_check rest hrest)]
    have hdv : digitsVal (d :: t) = n.natAbs := by rw [← heq]; exact digitsVal_natStr n.natAbs
    rw [hdv]
    have hval : -(n.natAbs : Int) = n := by omega
    rw [hval]
  · have h1 : intStr n = natStr n.toNat := by unfold intStr; rw [if_neg hneg]
    rw [h1, parseNumberFrom_natStr n.toNat rest hrest, digitsVal_natStr]
    have hval : ((n.toNat : Int)) = n := by omega
    rw [hval]


/-! ## Parser/serializer roundtrip -/


/-- Serialized values start with a non-whitespace dispatch character. -/
theorem dumps_head (x : Json) : ∃ d t, json_dumps x = d :: t ∧
    (d = 110 ∨ d = 116 ∨ d = 102 ∨ d = 34 ∨ d = 91 ∨ d = 123 ∨ (45 ≤ d ∧ d ≤ 57)) := by
  cases x with
  | null => exact ⟨110, _, rfl, by omega⟩
  | bool b => cases b with
    | true => exact ⟨116, _, rfl, by omega⟩
    | false => exact ⟨102, _, rfl, by omega⟩
  | num n =>
    obtain ⟨d, t, heq, hr⟩ : ∃ d t, intStr n = d :: t ∧ 45 ≤ d ∧ d ≤ 57 := by
      unfold intStr natStr
      split_ifs with h1 h2 h3
      · exact ⟨45, _, rfl, by omega, by omega⟩
      · exact ⟨45, _, rfl, by omega, by omega⟩
      · exact ⟨48, _, rfl, by omega, by omega⟩
      · obtain ⟨d, t, heq, ha, hb⟩ := natStrAux_head _ h3
        exact ⟨d, t, heq, by omega, by omega⟩
    exact ⟨d, t, by rw [json_dumps, heq], by omega⟩
  | str s => exact ⟨34, _, by rw [json_dumps]; rfl, by omega⟩
  | arr xs => cases xs with
    | nil => exact ⟨91, _, rfl, by omega⟩
    | cons y ys => exact ⟨91, _, by rw [json_dumps]; rfl, by omega⟩
  | obj kvs =>
    match kvs with
    | [] => exact ⟨123, _, rfl, by omega⟩
    | (k, v) :: kvs2 => exact ⟨123, _, by rw [json_dumps]; rfl, by omega⟩

theorem isWs_false_of_range {d : Nat}
    (h : d = 110 ∨ d = 116 ∨ d = 102 ∨ d = 34 ∨ d = 91 ∨ d = 123 ∨ (45 ≤ d ∧ d ≤ 57)) :
    isWs d = false := by
  simp only [isWs, Bool.or_eq_false_iff, decide_eq_false_iff_not]
  omega

theorem dropWhile_isWs_cons {d : Nat} (R : PyStr) (h : isWs d = false) :
    (d :: R).dropWhile isWs = d :: R := by
  simp [List.dropWhile_cons, h]

/-- Keys view of an association list. -/
theorem memKey_false {k : PyStr} : ∀ {ks : List PyStr}, memKey k ks = false → k ∉ ks
  | [], _, h2 => by simp at h2
  | k2 :: ks, h, h2 => by
    rw [memKey] at h
    split_ifs at h with he
    rcases List.mem_cons.mp h2 with rfl | h3
    · exact he rfl
    · exact memKey_false h h3

theorem dInsert_notmem (d : List (PyStr × Json)) (k : PyStr) (v : Json)
    (h : k ∉ d.map Prod.fst) : dInsert d k v = d ++ [(k, v)] := by
  induction d with
  | nil => rfl
  | cons p rest ih =>
    obtain ⟨k0, v0⟩ := p
    rw [dInsert]
    rw [if_neg (by
      intro he
      exact h (by simp [he]))]
    rw [ih (by
      intro hm
      exact h (by simp [hm]))]
    simp

theorem memKey_self (k : PyStr) (ks : List PyStr) : memKey k (k :: ks) = true := by
  rw [memKey]
  simp

theorem memKey_cons_false {k k2 : PyStr} {ks : List PyStr}
    (h : memKey k (k2 :: ks) = false) : ¬k2 = k ∧ memKey k ks = false := by
  rw [memKey] at h
  split_ifs at h with he
  exact ⟨he, h⟩

theorem memKey_append (k : PyStr) : ∀ a b : List PyStr,
    memKey k (a ++ b) = (memKey k a || memKey k b)
  | [], b => by simp [memKey]
  | k2 :: a, b => by
    simp only [List.cons_append, memKey]
    split_ifs with he
    · simp
    · exact memKey_append k a b

theorem keysDistinct_cons {k : PyStr} {ks : List PyStr}
    (h : keysDistinct (k :: ks) = true) : memKey k ks = false ∧ keysDistinct ks = true := by
  rw [keysDistinct] at h
  have h' : (!memKey k ks) = true ∧ keysDistinct ks = true := Bool.and_eq_true_iff.mp h
  exact ⟨by simpa using h'.1, h'.2⟩

theorem foldl_dInsert : ∀ ps acc : List (PyStr × Json),
    (∀ k, memKey k (acc.map Prod.fst) = true → memKey k (ps.map Prod.fst) = false) →
    keysDistinct (ps.map Prod.fst) = true →
    ps.foldl (fun d p => dInsert d p.1 p.2) acc = acc ++ ps
  | [], acc, _, _ => by simp
  | (k, v) :: ps, acc, hdisj, hdis => by
    rw [List.foldl_cons]
    have hknotin : memKey k (acc.map Prod.fst) = false := by
      by_cases hk : memKey k (acc.map Prod.fst) = true
      · have := hdisj k hk
        rw [List.map_cons, memKey_self] at this
        exact absurd this (by simp)
      · simpa using hk
    have hins : dInsert acc k v = acc ++ [(k, v)] :=
      dInsert_notmem acc k v (memKey_false hknotin)
    rw [hins]
    have hdis2 := keysDistinct_cons (by simpa using hdis)
    rw [foldl_dInsert ps (acc ++ [(k, v)]) ?hdisj (by simpa using hdis2.2)]
    · simp
    case hdisj =>
      intro k2 hk2
      rw [List.map_append, memKey_append] at hk2
      have hk2' : memKey k2 (List.map Prod.fst acc) = true ∨
          memKey k2 (List.map Prod.fst [(k, v)]) = true := by simpa using hk2
      rcases hk2' with hk2 | hk2
      · exact (memKey_cons_false (by simpa using hdisj k2 hk2)).2
      · simp only [List.map_cons, List.map_nil, memKey] at hk2
        split_ifs at hk2 with he
        subst he
        exact hdis2.1

theorem dFromPairs_distinct (kvs : List (PyStr × Json))
    (h : keysDistinct (kvs.map Prod.fst) = true) : dFromPairs kvs = kvs := by
  have := foldl_dInsert kvs []
    (by intro k hk; rw [List.map_nil, memKey] at hk; cases hk) h
  simpa [dFromPairs] using this


theorem numSafe_cons (c : Nat) (r : PyStr)
    (h : isDigit c = false ∧ ¬c = 46 ∧ ¬c = 101 ∧ ¬c = 69) : numSafe (c :: r) := by
  intro c2 t2 heq
  injection heq with e1 e2
  subst e1
  exact h

theorem numSafe_arrRest (xs : List Json) (rest : PyStr) :
    numSafe (dumpsArrRest xs ++ (93 :: rest)) := by
  cases xs with
  | nil =>
    rw [dumpsArrRest, List.nil_append]
    exact numSafe_cons 93 rest (by refine ⟨?_, by omega, by omega, by omega⟩; rfl)
  | cons x xs =>
    rw [dumpsArrRest]
    simp only [List.cons_append]
    exact numSafe_cons 44 _ (by refine ⟨?_, by omega, by omega, by omega⟩; rfl)

theorem numSafe_objRest (kvs : List (PyStr × Json)) (rest : PyStr) :
    numSafe (dumpsObjRest kvs ++ (125 :: rest)) := by
  cases kvs with
  | nil =>
    rw [dumpsObjRest, List.nil_append]
    exact numSafe_cons 125 rest (by refine ⟨?_, by omega, by omega, by omega⟩; rfl)
  | cons p kvs =>
    obtain ⟨k, v⟩ := p
    rw [dumpsObjRest]
    simp only [List.cons_append]
    exact numSafe_cons 44 _ (by refine ⟨?_, by omega, by omega, by omega⟩; rfl)

theorem jsize_pos : ∀ x : Json, 1 ≤ jsize x := by
  intro x
  cases x <;> rw [jsize] <;> omega

theorem jwfArr_cons {x : Json} {xs : List Json} (h : jwfArr (x :: xs) = true) :
    jwf x = true ∧ jwfArr xs = true := by
  rw [jwfArr] at h
  exact Bool.and_eq_true_iff.mp h

theorem jwfObj_cons {k : PyStr} {v : Json} {kvs : List (PyStr × Json)}
    (h : jwfObj ((k, v) :: kvs) = true) :
    strOkB k = true ∧ jwf v = true ∧ jwfObj kvs = true := by
  rw [jwfObj] at h
  rcases Bool.and_eq_true_iff.mp h with ⟨h1, h2⟩
  rcases Bool.and_eq_true_iff.mp h1 with ⟨h3, h4⟩
  exact ⟨h3, h4, h2⟩

theorem jwf_obj {kvs : List (PyStr × Json)} (h : jwf (.obj kvs) = true) :
    keysDistinct (kvs.map Prod.fst) = true ∧ jwfObj kvs = true := by
  rw [jwf] at h
  exact Bool.and_eq_true_iff.mp h

theorem parse_dumps : ∀ f : Nat,
    (∀ x rest, jsize x ≤ f → jwf x = true → numSafe rest →
      parseVal f (json_dumps x ++ rest) = some (x, rest)) ∧
    (∀ x xs rest, jsizeArr (x :: xs) ≤ f → jwfArr (x :: xs) = true →
      parseItems f (json_dumps x ++ (dumpsArrRest xs ++ (93 :: rest))) = some (x :: xs, rest)) ∧
    (∀ k v kvs rest, jsizeObj ((k, v) :: kvs) ≤ f →
      strOkB k = true → jwf v = true → jwfObj kvs = true →
      parseMembers f (34 :: (escBody k ++ (34 :: (58 :: (json_dumps v ++
        (dumpsObjRest kvs ++ (125 :: rest))))))) = some ((k, v) :: kvs, rest)) := by
  intro f
  induction f with
  | zero =>
    refine ⟨?_, ?_, ?_⟩
    · intro x rest hs _ _
      have := jsize_pos x
      omega
    · intro x xs rest hs _
      rw [jsizeArr] at hs
      have := jsize_pos x
      omega
    · intro k v kvs rest hs _ _ _
      rw [jsizeObj] at hs
      have := jsize_pos v
      omega
  | succ f ih =>
    obtain ⟨ih1, ih2, ih3⟩ := ih
    refine ⟨?_, ?_, ?_⟩
    · -- values
      intro x rest hs hwf hns
      cases x with
      | null =>
        rw [json_dumps, parseVal]
        simp [isWs]
      | bool b =>
        cases b with
        | true =>
          rw [json_dumps, parseVal]
          simp [isWs]
        | false =>
          rw [json_dumps, parseVal]
          simp [isWs]
      | num n =>
        obtain ⟨d, t, heq, hr⟩ := dumps_head (.num n)
        rw [json_dumps] at heq ⊢
        rw [heq, List.cons_append, parseVal,
          dropWhile_isWs_cons _ (isWs_false_of_range hr)]
        have hd : 45 ≤ d ∧ d ≤ 57 := by
          rcases (show ∃ c t2, intStr n = c :: t2 ∧ 45 ≤ c ∧ c ≤ 57 from by
            cases hin : intStr n with
            | nil => exact absurd hin (by
                unfold intStr
                split_ifs
                · simp
                · exact natStr_ne_nil _)
            | cons c t2 =>
                have := intStr_range n c (by rw [hin]; simp)
                exact ⟨c, t2, rfl, this⟩) with ⟨c, t2, hin, hc⟩
          rw [hin] at heq
          injection heq with e1 _
          omega
        have e1 : ¬d = 123 := by omega
        have e2 : ¬d = 91 := by omega
        have e3 : ¬d = 34 := by omega
        have e4 : ¬d = 110 := by omega
        have e5 : ¬d = 116 := by omega
        have e6 : ¬d = 102 := by omega
        simp only [e1, e2, e3, e4, e5, e6, if_false]
        rw [← List.cons_append, ← heq]
        exact parseNumber_intStr n rest hns
      | str s =>
        have hok : strOkB s = true := by rwa [jwf] at hwf
        rw [json_dumps, parseVal]
        simp only [List.cons_append, List.append_assoc, List.singleton_append]
        rw [dropWhile_isWs_cons _ (by rfl)]
        simp [psb_append s rest hok]
      | arr xs =>
        cases xs with
        | nil =>
          rw [json_dumps, parseVal]
          simp [isWs]
        | cons x2 xs2 =>
          obtain ⟨d, t, heq, hr⟩ := dumps_head x2
          have hd93 : ¬d = 93 := by omega
          have hsz : jsizeArr (x2 :: xs2) ≤ f := by rw [jsize] at hs; omega
          have hitems := ih2 x2 xs2 rest hsz (by rwa [jwf] at hwf)
          rw [json_dumps, parseVal]
          simp only [List.cons_append, List.append_assoc, List.singleton_append,
            List.nil_append]
          rw [dropWhile_isWs_cons _ (by rfl)]
          simp only []
          rw [if_neg (show ¬(91 : Nat) = 123 from by omega)]
          simp only [if_true]
          have hdisp : (json_dumps x2 ++ (dumpsArrRest xs2 ++ (93 :: rest))).dropWhile isWs =
              d :: (t ++ (dumpsArrRest xs2 ++ (93 :: rest))) := by
            rw [heq, List.cons_append]
            exact dropWhile_isWs_cons _ (isWs_false_of_range hr)
          rw [hdisp]
          split
          · rename_i rest2 hmatch
            injection hmatch with e1 _
            exact absurd e1 hd93
          · rw [hitems]
            rfl
      | obj kvs =>
        cases kvs with
        | nil =>
          rw [json_dumps, parseVal]
          simp [isWs]
        | cons p kvs2 =>
          obtain ⟨k, v⟩ := p
          obtain ⟨hdis, hobj⟩ := jwf_obj hwf
          obtain ⟨hk, hv, hkvs⟩ := jwfObj_cons hobj
          have hsz : jsizeObj ((k, v) :: kvs2) ≤ f := by rw [jsize] at hs; omega
          have hmem := ih3 k v kvs2 rest hsz hk hv hkvs
          rw [json_dumps, parseVal]
          simp only [List.cons_append, List.append_assoc, List.singleton_append,
            List.nil_append]
          rw [dropWhile_isWs_cons _ (by rfl)]
          simp only [if_true]
          have hdisp : (34 :: (escBody k ++ (34 :: (58 :: (json_dumps v ++
              (dumpsObjRest kvs2 ++ (125 :: rest))))))).dropWhile isWs =
              34 :: (escBody k ++ (34 :: (58 :: (json_dumps v ++
              (dumpsObjRest kvs2 ++ (125 :: rest)))))) := dropWhile_isWs_cons _ (by rfl)
          rw [hdisp]
          split
          · rename_i rest2 hmatch
            injection hmatch with e1 _
            exact absurd e1 (by omega)
          · rw [hmem]
            show some (Json.obj (dFromPairs ((k, v) :: kvs2)), rest) =
              some (Json.obj ((k, v) :: kvs2), rest)
            rw [dFromPairs_distinct _ hdis]
    · -- array items
      intro x xs rest hs hwf
      obtain ⟨hx, hxs⟩ := jwfArr_cons hwf
      rw [parseItems]
      have hsx : jsize x ≤ f := by rw [jsizeArr] at hs; omega
      rw [ih1 x _ hsx hx (numSafe_arrRest xs rest)]
      simp only []
      cases xs with
      | nil =>
        rw [dumpsArrRest, List.nil_append,
          dropWhile_isWs_cons _ (by rfl)]
      | cons x2 xs2 =>
        rw [dumpsArrRest]
        simp only [List.cons_append, List.append_assoc]
        rw [dropWhile_isWs_cons _ (by rfl)]
        simp only []
        have hsz2 : jsizeArr (x2 :: xs2) ≤ f := by
          rw [jsizeArr] at hs
          have := jsize_pos x
          omega
        rw [ih2 x2 xs2 rest hsz2 hxs]
        rfl
    · -- object members
      intro k v kvs rest hs hk hv hkvs
      rw [parseMembers]
      rw [dropWhile_isWs_cons _ (by rfl)]
      simp only []
      rw [psb_append k _ hk]
      simp only []
      rw [dropWhile_isWs_cons _ (by rfl)]
      simp only []
      have hsv : jsize v ≤ f := by rw [jsizeObj] at hs; omega
      rw [ih1 v _ hsv hv (numSafe_objRest kvs rest)]
      simp only []
      cases kvs with
      | nil =>
        rw [dumpsObjRest, List.nil_append,
          dropWhile_isWs_cons _ (by rfl)]
      | cons p kvs2 =>
        obtain ⟨k2, v2⟩ := p
        obtain ⟨hk2, hv2, hkvs2⟩ := jwfObj_cons hkvs
        rw [dumpsObjRest]
        simp only [List.cons_append, List.append_assoc]
        rw [dropWhile_isWs_cons _ (by rfl)]
        simp only []
        have hsz2 : jsizeObj ((k2, v2) :: kvs2) ≤ f := by
          rw [jsizeObj] at hs
          have := jsize_pos v
          omega
        rw [ih3 k2 v2 kvs2 rest hsz2 hk2 hv2 hkvs2]
        rfl

/-! ## Parser outputs are well-formed values -/

theorem strOkB_cons_intro (c : Nat) (s : PyStr) (hc : c < 1114112)
    (hadj : ∀ c2 s2, s = c2 :: s2 → ¬(55296 ≤ c ∧ c < 56320 ∧ 56320 ≤ c2 ∧ c2 < 57344))
    (hs : strOkB s = true) : strOkB (c :: s) = true := by
  cases s with
  | nil => simp [strOkB, hc]
  | cons c2 s2 =>
    rw [strOkB,
      if_pos ⟨hc, fun hcon => hadj c2 s2 rfl ⟨hcon.1, hcon.2.1, hcon.2.2.1, hcon.2.2.2⟩⟩]
    exact hs

theorem hexVal_lt (c v : Nat) (h : hexVal c = some v) : v < 16 := by
  unfold hexVal at h
  split_ifs at h <;> (injection h with h1; omega)

theorem hex4Val_lt (a b c d n : Nat) (h : hex4Val a b c d = some n) : n < 65536 := by
  unfold hex4Val at h
  rcases ha : hexVal a with _ | va <;> rw [ha] at h
  · cases h
  rcases hb : hexVal b with _ | vb <;> rw [hb] at h
  · cases h
  rcases hc : hexVal c with _ | vc <;> rw [hc] at h
  · cases h
  rcases hd : hexVal d with _ | vd <;> rw [hd] at h
  · cases h
  simp only [Option.pure_def, Option.bind_eq_bind, Option.some_bind] at h
  injection h with h1
  have h1a := hexVal_lt a va ha
  have h1b := hexVal_lt b vb hb
  have h1c := hexVal_lt c vc hc
  have h1d := hexVal_lt d vd hd
  omega

theorem escVal_lt (e v : Nat) (h : escVal e = some v) : v < 128 := by
  unfold escVal at h
  split_ifs at h <;> (injection h with h1; omega)

theorem psb_lit_bad (c : Nat) (rest : PyStr) (h1 : ¬c = 34) (h2 : ¬c = 92) (h3 : c < 32) :
    parseStringBody (c :: rest) = none := by
  rw [parseStringBody]
  · rw [if_pos h3]
  · omega
  · intro a b c1 d a2 b2 c2 d2 rest2 hc
    exact absurd hc h2
  · intro a b c1 d rest1 hc
    exact absurd hc h2
  · intro e rest1 hc
    exact absurd hc h2

theorem psb_esc_bad (e : Nat) (rest : PyStr) (hv : escVal e = none) (h117 : ¬e = 117) :
    parseStringBody (92 :: e :: rest) = none := by
  rw [parseStringBody]
  · rw [hv]
  · intro a b c d a2 b2 c2 d2 rest2 he _
    exact h117 he
  · intro a b c d rest1 he _
    exact h117 he

theorem psb_u_nondeep_bad (a b c d : Nat) (R : PyStr)
    (hv : hex4Val a b c d = none)
    (hnd : ∀ a2 b2 c2 d2 rest2, R ≠ 92 :: 117 :: a2 :: b2 :: c2 :: d2 :: rest2) :
    parseStringBody (92 :: 117 :: a :: b :: c :: d :: R) = none := by
  rw [parseStringBody]
  · rw [hv]
  · intro a2 b2 c2 d2 rest2 heq
    exact hnd a2 b2 c2 d2 rest2 heq

theorem psb_u_badhex_deep (a b c d a2 b2 c2 d2 : Nat) (rest2 : PyStr)
    (hv : hex4Val a b c d = none) :
    parseStringBody (92 :: 117 :: a :: b :: c :: d :: 92 :: 117 :: a2 :: b2 :: c2 :: d2 :: rest2) =
      none := by
  rw [parseStringBody]
  rw [hv]

theorem psb_u_badhex (a b c d : Nat) (R : PyStr) (hv : hex4Val a b c d = none) :
    parseStringBody (92 :: 117 :: a :: b :: c :: d :: R) = none := by
  rcases R with _ | ⟨r1, _ | ⟨r2, _ | ⟨r3, _ | ⟨r4, _ | ⟨r5, _ | ⟨r6, rr⟩⟩⟩⟩⟩⟩
  · exact psb_u_nondeep_bad a b c d [] hv (by intro _ _ _ _ _ hq; simp at hq)
  · exact psb_u_nondeep_bad a b c d [r1] hv (by intro _ _ _ _ _ hq; simp at hq)
  · exact psb_u_nondeep_bad a b c d [r1, r2] hv (by intro _ _ _ _ _ hq; simp at hq)
  · exact psb_u_nondeep_bad a b c d [r1, r2, r3] hv (by intro _ _ _ _ _ hq; simp at hq)
  · exact psb_u_nondeep_bad a b c d [r1, r2, r3, r4] hv (by intro _ _ _ _ _ hq; simp at hq)
  · exact psb_u_nondeep_bad a b c d [r1, r2, r3, r4, r5] hv (by intro _ _ _ _ _ hq; simp at hq)
  · by_cases h92 : r1 = 92 ∧ r2 = 117
    · obtain ⟨rfl, rfl⟩ := h92
      exact psb_u_badhex_deep a b c d r3 r4 r5 r6 rr hv
    · refine psb_u_nondeep_bad a b c d _ hv ?_
      intro a2 b2 c2 d2 rest2 heq
      rw [List.cons.injEq, List.cons.injEq] at heq
      exact h92 ⟨heq.1, heq.2.1⟩

theorem psb_u_deep_badhex2 (a b c d a2 b2 c2 d2 : Nat) (rest2 : PyStr) (n : Nat)
    (hv : hex4Val a b c d = some n)
    (hv2 : hex4Val a2 b2 c2 d2 = none) :
    parseStringBody (92 :: 117 :: a :: b :: c :: d :: 92 :: 117 :: a2 :: b2 :: c2 :: d2 :: rest2) =
      (parseStringBody (92 :: 117 :: a2 :: b2 :: c2 :: d2 :: rest2)).map
        (fun p => (n :: p.1, p.2)) := by
  rw [parseStringBody]
  by_cases hhi : 55296 ≤ n ∧ n < 56320
  · simp only [hv, hv2, if_pos hhi]
  · simp only [hv, if_neg hhi]

theorem psb_wf_u_step (a b c d : Nat) (R : PyStr) (n : Nat) (s r : PyStr)
    (hv : hex4Val a b c d = some n)
    (heval : parseStringBody (92 :: 117 :: a :: b :: c :: d :: R) =
      (parseStringBody R).map (fun p => (n :: p.1, p.2)))
    (hsafe : (55296 ≤ n ∧ n < 56320) →
      ∀ a2 b2 c2 d2 t m, R = 92 :: 117 :: a2 :: b2 :: c2 :: d2 :: t →
        hex4Val a2 b2 c2 d2 = some m → ¬(56320 ≤ m ∧ m < 57344))
    (hIH : ∀ s1 r1, parseStringBody R = some (s1, r1) → psbWF R s1 r1)
    (h : parseStringBody (92 :: 117 :: a :: b :: c :: d :: R) = some (s, r)) :
    psbWF (92 :: 117 :: a :: b :: c :: d :: R) s r := by
  rw [heval] at h
  rcases hx : parseStringBody R with _ | ⟨s1, r1⟩
  · rw [hx] at h
    exact Option.noConfusion h
  rw [hx] at h
  injection h with h'
  rw [Prod.mk.injEq] at h'
  obtain ⟨h1, rfl⟩ := h'
  subst h1
  obtain ⟨hs1, hmem, hlo⟩ := hIH s1 r1 hx
  refine ⟨?_, ?_, ?_⟩
  · refine strOkB_cons_intro n s1 (by have := hex4Val_lt a b c d n hv; omega) ?_ hs1
    intro c2 s2 heq hcon
    obtain ⟨a2, b2, c2x, d2, t, hR, hx2⟩ := hlo c2 s2 heq hcon.2.2.1 hcon.2.2.2
    exact hsafe ⟨hcon.1, hcon.2.1⟩ a2 b2 c2x d2 t c2 hR hx2 ⟨hcon.2.2.1, hcon.2.2.2⟩
  · intro x hx1
    have hxr := hmem x hx1
    simp only [List.mem_cons]
    tauto
  · intro c2 s2 heq h56 h57
    injection heq with he1 he2
    exact ⟨a, b, c, d, R, rfl, he1 ▸ hv⟩

theorem psb_wf_aux : ∀ N : Nat, ∀ cs : PyStr, cs.length ≤ N → (∀ c ∈ cs, okc c) →
    ∀ s r, parseStringBody cs = some (s, r) → psbWF cs s r := by
  intro N
  induction N with
  | zero =>
    intro cs hlen hok s r h
    rw [List.length_eq_zero.mp (Nat.le_zero.mp hlen)] at h
    simp [parseStringBody] at h
  | succ N ih =>
    intro cs hlen hok s r h
    rcases cs with _ | ⟨c, cs1⟩
    · simp [parseStringBody] at h
    by_cases hc34 : c = 34
    · subst hc34
      rw [psb_quote] at h
      injection h with h'
      rw [Prod.mk.injEq] at h'
      obtain ⟨h1, rfl⟩ := h'
      subst h1
      refine ⟨rfl, fun x hx1 => List.mem_cons_of_mem _ hx1, ?_⟩
      intro c2 s2 heq h56 h57
      exact List.noConfusion heq
    by_cases hc92 : c = 92
    · subst hc92
      rcases cs1 with _ | ⟨e, cs2⟩
      · rw [(show parseStringBody [92] = none from rfl)] at h
        exact Option.noConfusion h
      by_cases he117 : e = 117
      · subst he117
        rcases cs2 with _ | ⟨u1, _ | ⟨u2, _ | ⟨u3, _ | ⟨u4, R⟩⟩⟩⟩
        · rw [(show parseStringBody [92, 117] = none from rfl)] at h
          exact Option.noConfusion h
        · rw [(show parseStringBody [92, 117, u1] = none from rfl)] at h
          exact Option.noConfusion h
        · rw [(show parseStringBody [92, 117, u1, u2] = none from rfl)] at h
          exact Option.noConfusion h
        · rw [(show parseStringBody [92, 117, u1, u2, u3] = none from rfl)] at h
          exact Option.noConfusion h
        rcases hv : hex4Val u1 u2 u3 u4 with _ | n
        · rw [psb_u_badhex u1 u2 u3 u4 R hv] at h
          exact Option.noConfusion h
        have hlenR : R.length ≤ N := by
          simp only [List.length_cons] at hlen
          omega
        have hokR : ∀ x ∈ R, okc x := fun x hx1 => hok x (by simp [List.mem_cons, hx1])
        have hIH : ∀ s1 r1, parseStringBody R = some (s1, r1) → psbWF R s1 r1 :=
          fun s1 r1 hx1 => ih R hlenR hokR s1 r1 hx1
        by_cases hhi : 55296 ≤ n ∧ n < 56320
        · rcases R with _ | ⟨r1, _ | ⟨r2, _ | ⟨r3, _ | ⟨r4, _ | ⟨r5, _ | ⟨r6, rr⟩⟩⟩⟩⟩⟩
          · exact psb_wf_u_step u1 u2 u3 u4 [] n s r hv
              (psb_u_nondeep u1 u2 u3 u4 [] n hv (by intro _ _ _ _ _ hq; simp at hq))
              (fun _ a2 b2 c2 d2 t m hR => absurd hR (by simp)) hIH h
          · exact psb_wf_u_step u1 u2 u3 u4 [r1] n s r hv
              (psb_u_nondeep u1 u2 u3 u4 [r1] n hv (by intro _ _ _ _ _ hq; simp at hq))
              (fun _ a2 b2 c2 d2 t m hR => absurd hR (by simp)) hIH h
          · exact psb_wf_u_step u1 u2 u3 u4 [r1, r2] n s r hv
              (psb_u_nondeep u1 u2 u3 u4 [r1, r2] n hv (by intro _ _ _ _ _ hq; simp at hq))
              (fun _ a2 b2 c2 d2 t m hR => absurd hR (by simp)) hIH h
          · exact psb_wf_u_step u1 u2 u3 u4 [r1, r2, r3] n s r hv
              (psb_u_nondeep u1 u2 u3 u4 [r1, r2, r3] n hv
                (by intro _ _ _ _ _ hq; simp at hq))
              (fun _ a2 b2 c2 d2 t m hR => absurd hR (by simp)) hIH h
          · exact psb_wf_u_step u1 u2 u3 u4 [r1, r2, r3, r4] n s r hv
              (psb_u_nondeep u1 u2 u3 u4 [r1, r2, r3, r4] n hv
                (by intro _ _ _ _ _ hq; simp at hq))
              (fun _ a2 b2 c2 d2 t m hR => absurd hR (by simp)) hIH h
          · exact psb_wf_u_step u1 u2 u3 u4 [r1, r2, r3, r4, r5] n s r hv
              (psb_u_nondeep u1 u2 u3 u4 [r1, r2, r3, r4, r5] n hv
                (by intro _ _ _ _ _ hq; simp at hq))
              (fun _ a2 b2 c2 d2 t m hR => absurd hR (by simp)) hIH h
          · by_cases h92 : r1 = 92 ∧ r2 = 117
            · obtain ⟨rfl, rfl⟩ := h92
              rcases hv2 : hex4Val r3 r4 r5 r6 with _ | m
              · refine psb_wf_u_step u1 u2 u3 u4 _ n s r hv
                  (psb_u_deep_badhex2 u1 u2 u3 u4 r3 r4 r5 r6 rr n hv hv2) ?_ hIH h
                intro _ a2 b2 c2 d2 t m1 hR hx2
                injection hR with hq1 hR
                injection hR with hq2 hR
                injection hR with hq3 hR
                injection hR with hq4 hR
                injection hR with hq5 hR
                injection hR with hq6 hR
                rw [← hq3, ← hq4, ← hq5, ← hq6, hv2] at hx2
                exact Option.noConfusion hx2
              · by_cases hlo : 56320 ≤ m ∧ m < 57344
                · rw [psb_u_deep_pair u1 u2 u3 u4 r3 r4 r5 r6 rr n m hv hhi hv2 hlo] at h
                  rcases hx : parseStringBody rr with _ | ⟨s1, r1x⟩
                  · rw [hx] at h
                    exact Option.noConfusion h
                  rw [hx] at h
                  injection h with h'
                  rw [Prod.mk.injEq] at h'
                  obtain ⟨h1, rfl⟩ := h'
                  subst h1
                  have hlenrr : rr.length ≤ N := by
                    simp only [List.length_cons] at hlen
                    omega
                  obtain ⟨hs1, hmem, hlo1⟩ := ih rr hlenrr
                    (fun x hx1 => hok x (by simp [List.mem_cons, hx1])) s1 r1x hx
                  refine ⟨?_, ?_, ?_⟩
                  · refine strOkB_cons_intro _ s1 ?_ ?_ hs1
                    · have hn := hex4Val_lt u1 u2 u3 u4 n hv
                      have hm := hex4Val_lt r3 r4 r5 r6 m hv2
                      omega
                    · intro c2 s2 heq hcon
                      omega
                  · intro x hx1
                    have hxr := hmem x hx1
                    simp only [List.mem_cons]
                    tauto
                  · intro c2 s2 heq h56 h57
                    injection heq with he1 he2
                    omega
                · refine psb_wf_u_step u1 u2 u3 u4 _ n s r hv
                    (psb_u_deep_nopair u1 u2 u3 u4 r3 r4 r5 r6 rr n m hv hv2 hlo) ?_ hIH h
                  intro _ a2 b2 c2 d2 t m1 hR hx2
                  injection hR with hq1 hR
                  injection hR with hq2 hR
                  injection hR with hq3 hR
                  injection hR with hq4 hR
                  injection hR with hq5 hR
                  injection hR with hq6 hR
                  rw [← hq3, ← hq4, ← hq5, ← hq6, hv2] at hx2
                  injection hx2 with hmm
                  intro hcon
                  exact hlo (hmm ▸ hcon)
            · refine psb_wf_u_step u1 u2 u3 u4 _ n s r hv
                (psb_u_nondeep u1 u2 u3 u4 _ n hv ?_) ?_ hIH h
              · intro a2 b2 c2 d2 t hq
                rw [List.cons.injEq, List.cons.injEq] at hq
                exact h92 ⟨hq.1, hq.2.1⟩
              · intro _ a2 b2 c2 d2 t m hR hx2
                rw [List.cons.injEq, List.cons.injEq] at hR
                exact absurd ⟨hR.1, hR.2.1⟩ h92
        · exact psb_wf_u_step u1 u2 u3 u4 R n s r hv (psb_u_nothi u1 u2 u3 u4 R n hv hhi)
            (fun hhi1 => absurd hhi1 hhi) hIH h
      · rcases hesc : escVal e with _ | v
        · rw [psb_esc_bad e cs2 hesc he117] at h
          exact Option.noConfusion h
        · rw [psb_esc e cs2 v hesc he117] at h
          rcases hx : parseStringBody cs2 with _ | ⟨s1, r1⟩
          · rw [hx] at h
            exact Option.noConfusion h
          rw [hx] at h
          injection h with h'
          rw [Prod.mk.injEq] at h'
          obtain ⟨h1, rfl⟩ := h'
          subst h1
          have hlen2 : cs2.length ≤ N := by
            simp only [List.length_cons] at hlen
            omega
          obtain ⟨hs1, hmem, hlo1⟩ := ih cs2 hlen2
            (fun x hx1 => hok x (by simp [List.mem_cons, hx1])) s1 r1 hx
          have hv128 := escVal_lt e v hesc
          refine ⟨?_, ?_, ?_⟩
          · refine strOkB_cons_intro v s1 (by omega) ?_ hs1
            intro c2 s2 heq hcon
            omega
          · intro x hx1
            have hxr := hmem x hx1
            simp only [List.mem_cons]
            tauto
          · intro c2 s2 heq h56 h57
            injection heq with he1 he2
            omega
    · by_cases hlt : c < 32
      · rw [psb_lit_bad c cs1 hc34 hc92 hlt] at h
        exact Option.noConfusion h
      · rw [psb_lit c cs1 hc34 hc92 hlt] at h
        rcases hx : parseStringBody cs1 with _ | ⟨s1, r1⟩
        · rw [hx] at h
          exact Option.noConfusion h
        rw [hx] at h
        injection h with h'
        rw [Prod.mk.injEq] at h'
        obtain ⟨h1, rfl⟩ := h'
        subst h1
        have hokc := hok c (List.mem_cons_self c cs1)
        have hlen2 : cs1.length ≤ N := by
          simp only [List.length_cons] at hlen
          omega
        obtain ⟨hs1, hmem, hlo1⟩ := ih cs1 hlen2
          (fun x hx1 => hok x (List.mem_cons_of_mem _ hx1)) s1 r1 hx
        refine ⟨?_, ?_, ?_⟩
        · refine strOkB_cons_intro c s1 hokc.1 ?_ hs1
          intro c2 s2 heq hcon
          exact hokc.2 ⟨hcon.1, by omega⟩
        · exact fun x hx1 => List.mem_cons_of_mem _ (hmem x hx1)
        · intro c2 s2 heq h56 h57
          injection heq with he1 he2
          exact absurd ⟨by omega, by omega⟩ hokc.2

/-- Strings produced by the string scanner from surrogate-free input are
well-formed and the unconsumed rest is drawn from the input. -/
theorem psb_wf (cs : PyStr) (hok : ∀ c ∈ cs, okc c) (s r : PyStr)
    (h : parseStringBody cs = some (s, r)) :
    strOkB s = true ∧ ∀ x ∈ r, x ∈ cs :=
  ⟨(psb_wf_aux cs.length cs le_rfl hok s r h).1,
   (psb_wf_aux cs.length cs le_rfl hok s r h).2.1⟩

/-! ## Dict construction preserves well-formedness -/

theorem dInsert_keys (d : List (PyStr × Json)) (k : PyStr) (v : Json) :
    (dInsert d k v).map Prod.fst =
      if memKey k (d.map Prod.fst) = true then d.map Prod.fst
      else d.map Prod.fst ++ [k] := by
  induction d with
  | nil => simp [dInsert, memKey]
  | cons p rest ih =>
    rcases p with ⟨k0, v0⟩
    rw [dInsert]
    by_cases he : k0 = k
    · subst he
      simp [memKey_self]
    · rw [if_neg he]
      have hm : memKey k (k0 :: rest.map Prod.fst) = memKey k (rest.map Prod.fst) := by
        rw [memKey, if_neg he]
      simp only [List.map_cons, hm, ih]
      split_ifs <;> simp

theorem keysDistinct_append_single (k : PyStr) : ∀ ks : List PyStr,
    keysDistinct ks = true → memKey k ks = false →
    keysDistinct (ks ++ [k]) = true
  | [], _, _ => by simp [keysDistinct, memKey]
  | k2 :: ks, h, hm => by
    obtain ⟨h1, h2⟩ := keysDistinct_cons h
    obtain ⟨hne, hm2⟩ := memKey_cons_false hm
    have hk2 : memKey k2 [k] = false := by
      rw [memKey, if_neg (fun he => hne he.symm)]
      rfl
    rw [List.cons_append, keysDistinct, memKey_append, h1, hk2,
      keysDistinct_append_single k ks h2 hm2]
    rfl

theorem keysDistinct_dInsert (d : List (PyStr × Json)) (k : PyStr) (v : Json)
    (h : keysDistinct (d.map Prod.fst) = true) :
    keysDistinct ((dInsert d k v).map Prod.fst) = true := by
  rw [dInsert_keys]
  split_ifs with hm
  · exact h
  · refine keysDistinct_append_single k _ h ?_
    cases hmk : memKey k (d.map Prod.fst)
    · rfl
    · exact absurd hmk hm

theorem jwfObj_dInsert (d : List (PyStr × Json)) (k : PyStr) (v : Json)
    (hk : strOkB k = true) (hv : jwf v = true) (h : jwfObj d = true) :
    jwfObj (dInsert d k v) = true := by
  induction d with
  | nil => simp [dInsert, jwfObj, hk, hv]
  | cons p rest ih =>
    rcases p with ⟨k0, v0⟩
    obtain ⟨h1, h2, h3⟩ := jwfObj_cons h
    rw [dInsert]
    split_ifs with he
    · rw [jwfObj]
      simp [h1, hv, h3]
    · rw [jwfObj]
      simp [h1, h2, ih h3]

theorem foldl_dInsert_wf : ∀ ps acc : List (PyStr × Json),
    jwfObj ps = true →
    keysDistinct (acc.map Prod.fst) = true → jwfObj acc = true →
    keysDistinct ((ps.foldl (fun d p => dInsert d p.1 p.2) acc).map Prod.fst) = true ∧
    jwfObj (ps.foldl (fun d p => dInsert d p.1 p.2) acc) = true
  | [], acc, _, h1, h2 => ⟨h1, h2⟩
  | (k, v) :: ps, acc, hps, h1, h2 => by
    obtain ⟨hk, hv, hps2⟩ := jwfObj_cons hps
    rw [List.foldl_cons]
    exact foldl_dInsert_wf ps (dInsert acc k v) hps2
      (keysDistinct_dInsert acc k v h1) (jwfObj_dInsert acc k v hk hv h2)

/-- `dict(pairs)` built from well-formed pairs is a well-formed object. -/
theorem dFromPairs_wf (ps : List (PyStr × Json)) (h : jwfObj ps = true) :
    jwf (.obj (dFromPairs ps)) = true := by
  obtain ⟨h1, h2⟩ := foldl_dInsert_wf ps [] h rfl rfl
  rw [jwf, dFromPairs]
  simp [h1, h2]

/-! ## Scanner results are well-formed -/

theorem mem_dropWhile (p : Nat → Bool) : ∀ (l : List Nat) (x : Nat),
    x ∈ l.dropWhile p → x ∈ l
  | [], _, h => h
  | c :: t, x, h => by
    rw [List.dropWhile] at h
    cases hc : p c <;> rw [hc] at h
    · exact h
    · exact List.mem_cons_of_mem _ (mem_dropWhile p t x h)

theorem parseNumberFrom_wf (cs : PyStr) (x : Json) (r : PyStr)
    (h : parseNumberFrom cs = some (x, r)) : jwf x = true ∧ ∀ y ∈ r, y ∈ cs := by
  by_cases hneg : cs.head? = some 45
  · simp only [parseNumberFrom, if_pos hneg] at h
    split at h
    · exact Option.noConfusion h
    · split_ifs at h <;>
      · injection h with h1
        rw [Prod.mk.injEq] at h1
        obtain ⟨h2, h3⟩ := h1
        subst h2
        refine ⟨rfl, ?_⟩
        intro y hy
        rw [← h3] at hy
        exact List.tail_subset cs (List.drop_subset _ _ hy)
  · simp only [parseNumberFrom, if_neg hneg] at h
    split at h
    · exact Option.noConfusion h
    · split_ifs at h <;>
      · injection h with h1
        rw [Prod.mk.injEq] at h1
        obtain ⟨h2, h3⟩ := h1
        subst h2
        refine ⟨rfl, ?_⟩
        intro y hy
        rw [← h3] at hy
        exact List.drop_subset _ _ hy

set_option maxRecDepth 4000 in
theorem utf8Decode_okc : ∀ bs : List Nat, ∀ s : PyStr, utf8Decode bs = some s →
    ∀ c ∈ s, okc c
  | [], s, h => by
    rw [utf8Decode] at h
    injection h with h1
    subst h1
    intro c hc
    exact absurd hc (List.not_mem_nil c)
  | [b], s, h => by
    rw [utf8Decode] at h
    split_ifs at h with hb
    · injection h with h1
      subst h1
      intro c hc
      rcases List.mem_singleton.mp hc with rfl
      exact ⟨by omega, by omega⟩
  | [b, b2], s, h => by
    rw [utf8Decode] at h
    split_ifs at h with hb hb2
    · rcases hx : utf8Decode [b2] with _ | s1 <;> rw [hx] at h
      · exact Option.noConfusion h
      injection h with h1
      subst h1
      intro c hc
      rcases List.mem_cons.mp hc with rfl | hc2
      · exact ⟨by omega, by omega⟩
      · exact utf8Decode_okc [b2] s1 hx c hc2
    · obtain ⟨h1b, h2b, h3b⟩ := hb2
      simp only [utf8Cont, Bool.and_eq_true, decide_eq_true_eq] at h3b
      injection h with h1
      subst h1
      intro c hc
      rcases List.mem_singleton.mp hc with rfl
      simp only [okc, utf8V2]
      omega
  | [b, b2, b3], s, h => by
    rw [utf8Decode] at h
    split_ifs at h with hb hb2 hb3
    · rcases hx : utf8Decode [b2, b3] with _ | s1 <;> rw [hx] at h
      · exact Option.noConfusion h
      injection h with h1
      subst h1
      intro c hc
      rcases List.mem_cons.mp hc with rfl | hc2
      · exact ⟨by omega, by omega⟩
      · exact utf8Decode_okc [b2, b3] s1 hx c hc2
    · obtain ⟨h1b, h2b, h3b⟩ := hb2
      simp only [utf8Cont, Bool.and_eq_true, decide_eq_true_eq] at h3b
      rcases hx : utf8Decode [b3] with _ | s1 <;> rw [hx] at h
      · exact Option.noConfusion h
      injection h with h1
      subst h1
      intro c hc
      rcases List.mem_cons.mp hc with rfl | hc2
      · simp only [okc, utf8V2]
        omega
      · exact utf8Decode_okc [b3] s1 hx c hc2
    · obtain ⟨h1b, h2b, h3b, h4b, h5b⟩ := hb3
      simp only [utf8Cont, Bool.and_eq_true, decide_eq_true_eq] at h3b h4b
      have hok3 : 2048 ≤ utf8V3 b b2 b3 ∧
          (utf8V3 b b2 b3 < 55296 ∨ 57344 ≤ utf8V3 b b2 b3) := by
        simpa [utf8Ok3] using h5b
      injection h with h1
      subst h1
      intro c hc
      rcases List.mem_singleton.mp hc with rfl
      refine ⟨?_, ?_⟩
      · simp only [utf8V3] at hok3 ⊢
        omega
      · simp only [utf8V3] at hok3 ⊢
        omega
  | b :: b2 :: b3 :: b4 :: bs, s, h => by
    rw [utf8Decode] at h
    split_ifs at h with hb hb2 hb3 hb4
    · rcases hx : utf8Decode (b2 :: b3 :: b4 :: bs) with _ | s1 <;> rw [hx] at h
      · exact Option.noConfusion h
      injection h with h1
      subst h1
      intro c hc
      rcases List.mem_cons.mp hc with rfl | hc2
      · exact ⟨by omega, by omega⟩
      · exact utf8Decode_okc (b2 :: b3 :: b4 :: bs) s1 hx c hc2
    · obtain ⟨h1b, h2b, h3b⟩ := hb2
      simp only [utf8Cont, Bool.and_eq_true, decide_eq_true_eq] at h3b
      rcases hx : utf8Decode (b3 :: b4 :: bs) with _ | s1 <;> rw [hx] at h
      · exact Option.noConfusion h
      injection h with h1
      subst h1
      intro c hc
      rcases List.mem_cons.mp hc with rfl | hc2
      · simp only [okc, utf8V2]
        omega
      · exact utf8Decode_okc (b3 :: b4 :: bs) s1 hx c hc2
    · obtain ⟨h1b, h2b, h3b, h4b, h5b⟩ := hb3
      simp only [utf8Cont, Bool.and_eq_true, decide_eq_true_eq] at h3b h4b
      have hok3 : 2048 ≤ utf8V3 b b2 b3 ∧
          (utf8V3 b b2 b3 < 55296 ∨ 57344 ≤ utf8V3 b b2 b3) := by
        simpa [utf8Ok3] using h5b
      rcases hx : utf8Decode (b4 :: bs) with _ | s1 <;> rw [hx] at h
      · exact Option.noConfusion h
      injection h with h1
      subst h1
      intro c hc
      rcases List.mem_cons.mp hc with rfl | hc2
      · refine ⟨?_, ?_⟩
        · simp only [utf8V3] at hok3 ⊢
          omega
        · simp only [utf8V3] at hok3 ⊢
          omega
      · exact utf8Decode_okc (b4 :: bs) s1 hx c hc2
    · obtain ⟨h1b, h2b, h3b, h4b, h5b, h6b⟩ := hb4
      simp only [utf8Cont, Bool.and_eq_true, decide_eq_true_eq] at h3b h4b h5b
      have hok4 : 65536 ≤ utf8V4 b b2 b3 b4 ∧ utf8V4 b b2 b3 b4 ≤ 1114111 := by
        simpa [utf8Ok4] using h6b
      rcases hx : utf8Decode bs with _ | s1 <;> rw [hx] at h
      · exact Option.noConfusion h
      injection h with h1
      subst h1
      intro c hc
      rcases List.mem_cons.mp hc with rfl | hc2
      · refine ⟨?_, ?_⟩
        · omega
        · omega
      · exact utf8Decode_okc bs s1 hx c hc2

/-- Everything the recursive-descent parser returns is a well-formed value,
and the unparsed remainder is drawn from the input. -/
theorem parse_wf : ∀ f : Nat,
    (∀ cs : PyStr, (∀ c ∈ cs, okc c) → ∀ x r, parseVal f cs = some (x, r) →
      jwf x = true ∧ ∀ y ∈ r, y ∈ cs) ∧
    (∀ cs : PyStr, (∀ c ∈ cs, okc c) → ∀ xs r, parseItems f cs = some (xs, r) →
      jwfArr xs = true ∧ ∀ y ∈ r, y ∈ cs) ∧
    (∀ cs : PyStr, (∀ c ∈ cs, okc c) → ∀ ps r, parseMembers f cs = some (ps, r) →
      jwfObj ps = true ∧ ∀ y ∈ r, y ∈ cs) := by
  intro f
  induction f with
  | zero =>
    refine ⟨?_, ?_, ?_⟩
    · intro cs _ x r h
      exact Option.noConfusion h
    · intro cs _ xs r h
      exact Option.noConfusion h
    · intro cs _ ps r h
      exact Option.noConfusion h
  | succ f ih =>
    obtain ⟨ihV, ihI, ihM⟩ := ih
    refine ⟨?_, ?_, ?_⟩
    · intro cs hok x r h
      rw [parseVal] at h
      rcases hdw : cs.dropWhile isWs with _ | ⟨c, rest⟩ <;> rw [hdw] at h
      · exact Option.noConfusion h
      simp only [] at h
      have hsub : ∀ y ∈ c :: rest, y ∈ cs := by
        rw [← hdw]
        exact fun y hy => mem_dropWhile isWs cs y hy
      have hokr : ∀ y ∈ rest, okc y :=
        fun y hy => hok y (hsub y (List.mem_cons_of_mem _ hy))
      by_cases h123 : c = 123
      · rw [if_pos h123] at h
        split at h
        next rest2 heq =>
          injection h with h1
          rw [Prod.mk.injEq] at h1
          obtain ⟨h2, h3⟩ := h1
          subst h2
          subst h3
          refine ⟨rfl, ?_⟩
          intro y hy
          have h4 : y ∈ rest.dropWhile isWs := by
            rw [heq]
            exact List.mem_cons_of_mem _ hy
          exact hsub y (List.mem_cons_of_mem _ (mem_dropWhile isWs rest y h4))
        next hne =>
          rcases hm : parseMembers f rest with _ | ⟨ps, r1⟩ <;> rw [hm] at h
          · exact Option.noConfusion h
          injection h with h1
          rw [Prod.mk.injEq] at h1
          obtain ⟨h2, h3⟩ := h1
          subst h2
          subst h3
          obtain ⟨hwf, hmem⟩ := ihM rest hokr ps r1 hm
          refine ⟨dFromPairs_wf ps hwf, ?_⟩
          intro y hy
          exact hsub y (List.mem_cons_of_mem _ (hmem y hy))
      rw [if_neg h123] at h
      by_cases h91 : c = 91
      · rw [if_pos h91] at h
        split at h
        next rest2 heq =>
          injection h with h1
          rw [Prod.mk.injEq] at h1
          obtain ⟨h2, h3⟩ := h1
          subst h2
          subst h3
          refine ⟨rfl, ?_⟩
          intro y hy
          have h4 : y ∈ rest.dropWhile isWs := by
            rw [heq]
            exact List.mem_cons_of_mem _ hy
          exact hsub y (List.mem_cons_of_mem _ (mem_dropWhile isWs rest y h4))
        next hne =>
          rcases hm : parseItems f rest with _ | ⟨xs, r1⟩ <;> rw [hm] at h
          · exact Option.noConfusion h
          injection h with h1
          rw [Prod.mk.injEq] at h1
          obtain ⟨h2, h3⟩ := h1
          subst h2
          subst h3
          obtain ⟨hwf, hmem⟩ := ihI rest hokr xs r1 hm
          refine ⟨?_, ?_⟩
          · rw [jwf]
            exact hwf
          · intro y hy
            exact hsub y (List.mem_cons_of_mem _ (hmem y hy))
      rw [if_neg h91] at h
      by_cases h34 : c = 34
      · rw [if_pos h34] at h
        rcases hsb : parseStringBody rest with _ | ⟨s1, r1⟩ <;> rw [hsb] at h
        · exact Option.noConfusion h
        injection h with h1
        rw [Prod.mk.injEq] at h1
        obtain ⟨h2, h3⟩ := h1
        subst h2
        subst h3
        obtain ⟨hstr, hmem⟩ := psb_wf rest hokr s1 r1 hsb
        refine ⟨?_, ?_⟩
        · rw [jwf]
          exact hstr
        · intro y hy
          exact hsub y (List.mem_cons_of_mem _ (hmem y hy))
      rw [if_neg h34] at h
      by_cases h110 : c = 110
      · rw [if_pos h110] at h
        split_ifs at h with ht
        injection h with h1
        rw [Prod.mk.injEq] at h1
        obtain ⟨h2, h3⟩ := h1
        subst h2
        subst h3
        refine ⟨rfl, ?_⟩
        intro y hy
        exact hsub y (List.mem_cons_of_mem _ (List.drop_subset _ _ hy))
      rw [if_neg h110] at h
      by_cases h116 : c = 116
      · rw [if_pos h116] at h
        split_ifs at h with ht
        injection h with h1
        rw [Prod.mk.injEq] at h1
        obtain ⟨h2, h3⟩ := h1
        subst h2
        subst h3
        refine ⟨rfl, ?_⟩
        intro y hy
        exact hsub y (List.mem_cons_of_mem _ (List.drop_subset _ _ hy))
      rw [if_neg h116] at h
      by_cases h102 : c = 102
      · rw [if_pos h102] at h
        split_ifs at h with ht
        injection h with h1
        rw [Prod.mk.injEq] at h1
        obtain ⟨h2, h3⟩ := h1
        subst h2
        subst h3
        refine ⟨rfl, ?_⟩
        intro y hy
        exact hsub y (List.mem_cons_of_mem _ (List.drop_subset _ _ hy))
      rw [if_neg h102] at h
      obtain ⟨hwf, hmem⟩ := parseNumberFrom_wf (c :: rest) x r h
      exact ⟨hwf, fun y hy => hsub y (hmem y hy)⟩
    · intro cs hok xs r h
      rw [parseItems] at h
      rcases hpv : parseVal f cs with _ | ⟨x, r1⟩ <;> rw [hpv] at h
      · exact Option.noConfusion h
      simp only [] at h
      obtain ⟨hx, hmem1⟩ := ihV cs hok x r1 hpv
      split at h
      next r2 heq =>
        have hsubr2 : ∀ y ∈ r2, y ∈ cs := by
          intro y hy
          have h4 : y ∈ r1.dropWhile isWs := by
            rw [heq]
            exact List.mem_cons_of_mem _ hy
          exact hmem1 y (mem_dropWhile isWs r1 y h4)
        rcases hpi : parseItems f r2 with _ | ⟨xs1, r3⟩ <;> rw [hpi] at h
        · exact Option.noConfusion h
        injection h with h1
        rw [Prod.mk.injEq] at h1
        obtain ⟨h2, h3⟩ := h1
        subst h2
        subst h3
        obtain ⟨hwf1, hmem2⟩ := ihI r2 (fun y hy => hok y (hsubr2 y hy)) xs1 r3 hpi
        refine ⟨?_, ?_⟩
        · rw [jwfArr]
          simp [hx, hwf1]
        · intro y hy
          exact hsubr2 y (hmem2 y hy)
      next r2 heq =>
        injection h with h1
        rw [Prod.mk.injEq] at h1
        obtain ⟨h2, h3⟩ := h1
        subst h2
        subst h3
        refine ⟨?_, ?_⟩
        · rw [jwfArr]
          simp [hx, jwfArr]
        · intro y hy
          have h4 : y ∈ r1.dropWhile isWs := by
            rw [heq]
            exact List.mem_cons_of_mem _ hy
          exact hmem1 y (mem_dropWhile isWs r1 y h4)
      exact Option.noConfusion h
    · intro cs hok ps r h
      rw [parseMembers] at h
      split at h
      next r0 heq0 =>
        have hsub0 : ∀ y ∈ r0, y ∈ cs := by
          intro y hy
          have h4 : y ∈ cs.dropWhile isWs := by
            rw [heq0]
            exact List.mem_cons_of_mem _ hy
          exact mem_dropWhile isWs cs y h4
        rcases hsb : parseStringBody r0 with _ | ⟨k, r1⟩ <;> rw [hsb] at h
        · exact Option.noConfusion h
        simp only [] at h
        obtain ⟨hkstr, hmem1⟩ := psb_wf r0 (fun y hy => hok y (hsub0 y hy)) k r1 hsb
        have hsub1 : ∀ y ∈ r1, y ∈ cs := fun y hy => hsub0 y (hmem1 y hy)
        split at h
        next r2 heq1 =>
          have hsub2 : ∀ y ∈ r2, y ∈ cs := by
            intro y hy
            have h4 : y ∈ r1.dropWhile isWs := by
              rw [heq1]
              exact List.mem_cons_of_mem _ hy
            exact hsub1 y (mem_dropWhile isWs r1 y h4)
          rcases hpv : parseVal f r2 with _ | ⟨v, r3⟩ <;> rw [hpv] at h
          · exact Option.noConfusion h
          simp only [] at h
          obtain ⟨hvwf, hmem2⟩ := ihV r2 (fun y hy => hok y (hsub2 y hy)) v r3 hpv
          have hsub3 : ∀ y ∈ r3, y ∈ cs := fun y hy => hsub2 y (hmem2 y hy)
          split at h
          next r4 heq2 =>
            have hsub4 : ∀ y ∈ r4, y ∈ cs := by
              intro y hy
              have h4 : y ∈ r3.dropWhile isWs := by
                rw [heq2]
                exact List.mem_cons_of_mem _ hy
              exact hsub3 y (mem_dropWhile isWs r3 y h4)
            rcases hpm : parseMembers f r4 with _ | ⟨ps1, r5⟩ <;> rw [hpm] at h
            · exact Option.noConfusion h
            injection h with h1
            rw [Prod.mk.injEq] at h1
            obtain ⟨h2, h3⟩ := h1
            subst h2
            subst h3
            obtain ⟨hwf1, hmem3⟩ := ihM r4 (fun y hy => hok y (hsub4 y hy)) ps1 r5 hpm
            refine ⟨?_, fun y hy => hsub4 y (hmem3 y hy)⟩
            rw [jwfObj]
            simp [hkstr, hvwf, hwf1]
          next r4 heq2 =>
            injection h with h1
            rw [Prod.mk.injEq] at h1
            obtain ⟨h2, h3⟩ := h1
            subst h2
            subst h3
            refine ⟨?_, ?_⟩
            · rw [jwfObj]
              simp [hkstr, hvwf, jwfObj]
            · intro y hy
              have h4 : y ∈ r3.dropWhile isWs := by
                rw [heq2]
                exact List.mem_cons_of_mem _ hy
              exact hsub3 y (mem_dropWhile isWs r3 y h4)
          exact Option.noConfusion h
        exact Option.noConfusion h
      next hne =>
        exact Option.noConfusion h

/-- `json.loads` only produces well-formed values from surrogate-free text. -/
theorem json_loads_wf (s : PyStr) (hok : ∀ c ∈ s, okc c) (x : Json)
    (h : json_loads s = some x) : jwf x = true := by
  rw [json_loads] at h
  rcases hpv : parseVal (2 * s.length + 2) s with _ | ⟨y, r⟩ <;> rw [hpv] at h
  · exact Option.noConfusion h
  simp only [] at h
  split_ifs at h with hr
  injection h with h1
  subst h1
  exact ((parse_wf (2 * s.length + 2)).1 s hok y r hpv).1

/-- A successfully decoded segment is a well-formed value. -/
theorem decodeSegment_wf (p : PyStr) (x : Json) (h : decodeSegment p = some x) :
    jwf x = true := by
  unfold decodeSegment at h
  rcases h1 : base64url_decode p with _ | bs <;> rw [h1] at h
  · simp at h
  simp only [Option.pure_def, Option.bind_eq_bind, Option.some_bind] at h
  rcases h2 : utf8Decode bs with _ | s <;> rw [h2] at h
  · simp at h
  simp only [Option.some_bind] at h
  exact json_loads_wf s (utf8Decode_okc bs s h2) x h

/-- Both values produced by a successful `decode_jwt` are well-formed. -/
theorem decode_jwt_wf (token : PyStr) (hd pl : Json) (sig : PyStr)
    (h : decode_jwt token = .ok (hd, pl, sig)) : jwf hd = true ∧ jwf pl = true := by
  unfold decode_jwt at h
  split at h
  next p0 p1 p2 heq =>
    rcases h0 : decodeSegment p0 with _ | hdr <;> rw [h0] at h
    · exact Except.noConfusion h
    simp only [] at h
    rcases h1 : decodeSegment p1 with _ | pay <;> rw [h1] at h
    · exact Except.noConfusion h
    simp only [] at h
    injection h with h2
    rw [Prod.mk.injEq] at h2
    obtain ⟨h3, h4⟩ := h2
    rw [Prod.mk.injEq] at h4
    obtain ⟨h5, h6⟩ := h4
    subst h3
    subst h5
    exact ⟨decodeSegment_wf p0 hdr h0, decodeSegment_wf p1 pay h1⟩
  next hne =>
    exact Except.noConfusion h

/-! ## Round trips through the full segment pipeline -/

mutual
theorem jsize_le : ∀ x : Json, jsize x ≤ 2 * (json_dumps x).length
  | .null => by simp [jsize, json_dumps]
  | .bool true => by simp [jsize, json_dumps]
  | .bool false => by simp [jsize, json_dumps]
  | .num n => by
    rw [jsize, json_dumps]
    unfold intStr
    split_ifs with h1
    · simp only [List.length_cons]
      omega
    · have hne := natStr_ne_nil n.toNat
      have hpos : 0 < (natStr n.toNat).length := List.length_pos.mpr hne
      omega
  | .str s => by
    rw [jsize, json_dumps]
    simp only [List.length_cons, List.length_append, List.length_singleton]
    omega
  | .arr [] => by simp [jsize, jsizeArr, json_dumps]
  | .arr (x :: xs) => by
    have h1 := jsize_le x
    have h2 := jsizeArr_le xs
    rw [jsize, jsizeArr, json_dumps]
    simp only [List.length_cons, List.length_append, List.length_singleton]
    omega
  | .obj [] => by simp [jsize, jsizeObj, json_dumps]
  | .obj ((k, v) :: kvs) => by
    have h1 := jsize_le v
    have h2 := jsizeObj_le kvs
    rw [jsize, jsizeObj, json_dumps]
    simp only [List.length_cons, List.length_append, List.length_singleton]
    omega
theorem jsizeArr_le : ∀ xs : List Json, jsizeArr xs ≤ 2 * (dumpsArrRest xs).length + 1
  | [] => by simp [jsizeArr, dumpsArrRest]
  | x :: xs => by
    have h1 := jsize_le x
    have h2 := jsizeArr_le xs
    rw [jsizeArr, dumpsArrRest]
    simp only [List.length_cons, List.length_append]
    omega
theorem jsizeObj_le : ∀ kvs : List (PyStr × Json),
    jsizeObj kvs ≤ 2 * (dumpsObjRest kvs).length + 1
  | [] => by simp [jsizeObj, dumpsObjRest]
  | (k, v) :: kvs => by
    have h1 := jsize_le v
    have h2 := jsizeObj_le kvs
    rw [jsizeObj, dumpsObjRest]
    simp only [List.length_cons, List.length_append]
    omega
end

/-- `json.loads(json.dumps(x))` is the identity on well-formed values. -/
theorem json_loads_dumps (x : Json) (hwf : jwf x = true) :
    json_loads (json_dumps x) = some x := by
  rw [json_loads]
  have hfuel : jsize x ≤ 2 * (json_dumps x).length + 2 := by
    have := jsize_le x
    omega
  have hp := (parse_dumps (2 * (json_dumps x).length + 2)).1 x [] hfuel hwf
    (fun c t hct => List.noConfusion hct)
  rw [List.append_nil] at hp
  rw [hp]
  simp [List.dropWhile]

/-- Round trip of one segment: `_base64url_decode`, UTF-8 decode and
`json.loads` after `_base64url_encode` recover the serialized value. -/
theorem decodeSegment_encode (x : Json) (hwf : jwf x = true) :
    decodeSegment (base64url_encode x) = some x := by
  have hrange := dumps_range x
  have henc : utf8Encode (json_dumps x) = json_dumps x :=
    utf8Encode_ascii _ (fun c hc => by have := hrange c hc; omega)
  unfold decodeSegment base64url_encode
  rw [henc, b64_roundtrip _ (fun b hb => by have := hrange b hb; omega)]
  simp only [Option.pure_def, Option.bind_eq_bind, Option.some_bind]
  rw [utf8Decode_ascii _ (fun b hb => by have := hrange b hb; omega)]
  simp only [Option.some_bind]
  exact json_loads_dumps x hwf

/-! ## Splitting on dots -/

theorem pySplitDot_ne_nil : ∀ a : PyStr, pySplitDot a ≠ []
  | [] => by simp [pySplitDot]
  | c :: rest => by
    rw [pySplitDot]
    rcases hps : pySplitDot rest with _ | ⟨s, ss⟩
    · simp
    · simp only []
      split_ifs <;> simp

theorem pySplitDot_no_dot : ∀ a : PyStr, 46 ∉ a → pySplitDot a = [a]
  | [], _ => rfl
  | c :: rest, h => by
    have hr := pySplitDot_no_dot rest (fun hm => h (List.mem_cons_of_mem _ hm))
    rw [pySplitDot, hr]
    simp only []
    rw [if_neg (show ¬c = 46 from fun he => h (by rw [he]; exact List.mem_cons_self 46 rest))]

theorem pySplitDot_append : ∀ a r : PyStr, 46 ∉ a →
    pySplitDot (a ++ 46 :: r) = a :: pySplitDot r
  | [], r, _ => by
    rw [List.nil_append, pySplitDot]
    rcases hps : pySplitDot r with _ | ⟨s, ss⟩
    · exact absurd hps (pySplitDot_ne_nil r)
    · simp
  | c :: a, r, h => by
    have hr := pySplitDot_append a r (fun hm => h (List.mem_cons_of_mem _ hm))
    rw [List.cons_append, pySplitDot, hr]
    simp only []
    rw [if_neg (show ¬c = 46 from fun he => h (by rw [he]; exact List.mem_cons_self 46 a))]

/-- Decoding a token of the PoC shape recovers both encoded values and an
empty signature. -/
theorem decode_jwt_poc (eh payload : Json) (hwfh : jwf eh = true)
    (hwfp : jwf payload = true) :
    decode_jwt (base64url_encode eh ++ 46 :: base64url_encode payload ++ [46]) =
      .ok (eh, payload, []) := by
  unfold decode_jwt
  rw [List.append_assoc, List.cons_append]
  rw [pySplitDot_append _ _ (not_dot_base64url_encode eh),
    pySplitDot_append _ _ (not_dot_base64url_encode payload)]
  rw [(show pySplitDot [] = [[]] from rfl)]
  simp only []
  rw [decodeSegment_encode eh hwfh]
  simp only []
  rw [decodeSegment_encode payload hwfp]

/-! ## Scoring against the spec's policy -/

theorem scoreAccum_fst (acc : Int × Nat × Nat) (f : Finding) :
    (scoreAccum acc f).1 = acc.1 - specFindingPenalty f := by
  unfold scoreAccum specFindingPenalty
  split_ifs with hv
  · cases hs : f.severity <;> simp [specPenalty]
  · simp

theorem specTotalPenalty_cons (f : Finding) (fs : List Finding) :
    specTotalPenalty (f :: fs) = specFindingPenalty f + specTotalPenalty fs := by
  simp [specTotalPenalty]

theorem specFindingPenalty_nonneg (f : Finding) : 0 ≤ specFindingPenalty f := by
  unfold specFindingPenalty
  split_ifs
  · cases f.severity <;> simp [specPenalty]
  · exact le_refl 0

theorem specTotalPenalty_nonneg : ∀ fs : List Finding, 0 ≤ specTotalPenalty fs
  | [] => by simp [specTotalPenalty]
  | f :: fs => by
    rw [specTotalPenalty_cons]
    have h1 := specTotalPenalty_nonneg fs
    have h2 := specFindingPenalty_nonneg f
    omega

theorem scoreLoop_fst : ∀ (fs : List Finding) (acc : Int × Nat × Nat),
    (fs.foldl scoreAccum acc).1 = acc.1 - specTotalPenalty fs
  | [], acc => by simp [specTotalPenalty]
  | f :: fs, acc => by
    rw [List.foldl_cons, scoreLoop_fst fs (scoreAccum acc f), scoreAccum_fst,
      specTotalPenalty_cons]
    omega

/-- The implemented score is the spec's clamp of 100 minus the accumulated
penalties. -/
theorem securityScore_spec (fs : List Finding) :
    securityScore fs = specClamp (100 - specTotalPenalty fs) := by
  unfold securityScore scoreLoop specClamp
  rw [scoreLoop_fst fs (100, 0, 0)]
  have := specTotalPenalty_nonneg fs
  rw [min_eq_right (by omega)]

/-! ## Decoder and dict access lemmas for the claims -/

theorem decode_jwt_not3 (token : PyStr) (h : (pySplitDot token).length ≠ 3) :
    decode_jwt token = .error errParts := by
  unfold decode_jwt
  split
  next p0 p1 p2 heq =>
    rw [heq] at h
    simp at h
  next hne => rfl

theorem decode_jwt_split (token : PyStr) (hd pl : Json) (sig : PyStr)
    (h : decode_jwt token = .ok (hd, pl, sig)) :
    ∃ p0 p1, pySplitDot token = [p0, p1, sig] := by
  unfold decode_jwt at h
  split at h
  next p0 p1 p2 heq =>
    rcases h0 : decodeSegment p0 with _ | x <;> rw [h0] at h
    · exact Except.noConfusion h
    simp only [] at h
    rcases h1 : decodeSegment p1 with _ | y <;> rw [h1] at h
    · exact Except.noConfusion h
    simp only [] at h
    injection h with h2
    rw [Prod.mk.injEq] at h2
    obtain ⟨h3, h4⟩ := h2
    rw [Prod.mk.injEq] at h4
    exact ⟨p0, p1, by rw [heq, h4.2]⟩
  next hne =>
    exact Except.noConfusion h

theorem lookupD_dInsert : ∀ (d : List (PyStr × Json)) (k : PyStr) (v : Json),
    lookupD (dInsert d k v) k = some v
  | [], k, v => by simp [dInsert, lookupD]
  | (k0, v0) :: rest, k, v => by
    rw [dInsert]
    split_ifs with he
    · rw [lookupD, if_pos he]
    · rw [lookupD, if_neg he]
      exact lookupD_dInsert rest k v

theorem lookupD_not_mem : ∀ (kvs : List (PyStr × Json)) (k : PyStr),
    memKey k (kvs.map Prod.fst) = false → lookupD kvs k = none
  | [], _, _ => rfl
  | (k0, v0) :: kvs, k, h => by
    rw [List.map_cons] at h
    obtain ⟨hne, h2⟩ := memKey_cons_false h
    rw [lookupD, if_neg hne]
    exact lookupD_not_mem kvs k h2

theorem algString_obj (kvs : List (PyStr × Json)) :
    algString (Json.obj kvs) = asPyStr ((lookupD kvs (pystr "alg")).getD (.str [])) := rfl

theorem algString_exploit (kvs : List (PyStr × Json)) :
    algString (Json.obj (dInsert kvs (pystr "alg") (.str (pystr "none")))) =
      some (pystr "none") := by
  rw [algString_obj, lookupD_dInsert]
  rfl

/-- A header whose `alg` access succeeded as a string is an object. -/
theorem algString_some_obj (header : Json) (a : PyStr) (ha : algString header = some a) :
    ∃ kvs, header = Json.obj kvs := by
  cases header with
  | obj kvs => exact ⟨kvs, rfl⟩
  | null =>
    rw [(show algString Json.null = none from rfl)] at ha
    exact Option.noConfusion ha
  | bool b =>
    rw [(show algString (Json.bool b) = none from rfl)] at ha
    exact Option.noConfusion ha
  | num n =>
    rw [(show algString (Json.num n) = none from rfl)] at ha
    exact Option.noConfusion ha
  | str s =>
    rw [(show algString (Json.str s) = none from rfl)] at ha
    exact Option.noConfusion ha
  | arr xs =>
    rw [(show algString (Json.arr xs) = none from rfl)] at ha
    exact Option.noConfusion ha

/-- The exploit header stays well-formed. -/
theorem jwf_exploit_header (kvs : List (PyStr × Json)) (h : jwf (.obj kvs) = true) :
    jwf (.obj (dInsert kvs (pystr "alg") (.str (pystr "none")))) = true := by
  obtain ⟨h1, h2⟩ := jwf_obj h
  rw [jwf]
  simp [keysDistinct_dInsert kvs (pystr "alg") (Json.str (pystr "none")) h1,
    jwfObj_dInsert kvs (pystr "alg") (Json.str (pystr "none")) (by decide) (by decide) h2]

theorem runDetectors_isolate (ds1 ds2 : List Detector) (bad : Detector)
    (hb : ∀ h p s, bad h p s = none) (h p : Json) (s : PyStr) :
    runDetectors (ds1 ++ bad :: ds2) h p s = runDetectors (ds1 ++ ds2) h p s := by
  unfold runDetectors
  simp [List.filterMap_append, List.filterMap_cons, hb h p s]

/-! ## Heap access lemmas -/

theorem heapGet_append_self (h : Heap) (g : List (PyStr × Json)) :
    heapGet (h ++ [g]) h.length = g := by
  unfold heapGet
  rw [List.get?_concat_length]
  rfl

theorem heapSet_get_other (h : Heap) (r : Nat) (k : PyStr) (v : Json) (j : Nat)
    (hne : r ≠ j) : (heapSet h r k v).get? j = h.get? j := by
  unfold heapSet
  exact List.get?_set_ne _ _ hne

theorem heapSet_get_self (h : Heap) (r : Nat) (k : PyStr) (v : Json) (hr : r < h.length) :
    heapGet (heapSet h r k v) r = dInsert (heapGet h r) k v := by
  unfold heapSet heapGet
  rw [List.get?_set_eq]
  rcases hx : h.get? r with _ | g
  · rw [List.get?_eq_none] at hx
    omega
  · simp [hx]

/-! ## The claims -/

/-- C1 counterexample: a header whose `alg` value is the number 5 is "another
alg value", yet `none_algorithm.detect` raises `AttributeError` on
`.lower()` (the per-detector handler then swallows it), so no finding at
all is returned — not a finding with `vulnerable=false`. -/
theorem C1_counterexample :
    none_algorithm_detect (Json.obj [(pystr "alg", Json.num 5)]) (Json.obj []) [] = none ∧
    ∀ f : Finding,
      none_algorithm_detect (Json.obj [(pystr "alg", Json.num 5)]) (Json.obj []) [] ≠
        some f :=
  ⟨rfl, fun f h => Option.noConfusion h⟩

/-- C1 (amended): whenever the header's `alg` access yields a string `a`
(which includes an absent `alg`, defaulting to the empty string),
`none_algorithm.detect` returns a finding that is vulnerable with severity
CRITICAL exactly when `a` lower-cased is `"none"`, and not vulnerable for
every other such value. -/
theorem C1_none_algorithm (header payload : Json) (sig : PyStr) (a : PyStr)
    (ha : algString header = some a) :
    (∃ f : Finding, none_algorithm_detect header payload sig = some f ∧
      (f.vulnerable = true ↔ pyLower a = pystr "none") ∧
      (pyLower a = pystr "none" → f.severity = .CRITICAL) ∧
      (¬pyLower a = pystr "none" → f.vulnerable = false)) ∧
    (∀ kvs : List (PyStr × Json), memKey (pystr "alg") (kvs.map Prod.fst) = false →
      algString (Json.obj kvs) = some []) := by
  constructor
  · unfold none_algorithm_detect
    rw [ha]
    simp only [Option.pure_def, Option.bind_eq_bind, Option.some_bind]
    split_ifs with hn
    · exact ⟨_, rfl, ⟨fun _ => hn, fun _ => rfl⟩, fun _ => rfl, fun hc => absurd hn hc⟩
    · refine ⟨_, rfl, ?_, fun hc => absurd hc hn, fun _ => rfl⟩
      exact ⟨fun hv => Bool.noConfusion hv, fun hc => absurd hc hn⟩
  · intro kvs hmem
    rw [algString_obj, lookupD_not_mem kvs _ hmem]
    rfl

/-- C1 witness: the mixed-case value `"NoNe"` triggers the vulnerable
CRITICAL finding via the case-insensitive comparison. -/
theorem C1_none_algorithm_witness :
    algString (Json.obj [(pystr "alg", Json.str (pystr "NoNe"))]) = some (pystr "NoNe") ∧
    ((∃ f : Finding, none_algorithm_detect (Json.obj [(pystr "alg", Json.str (pystr "NoNe"))])
        (Json.obj []) [] = some f ∧
      (f.vulnerable = true ↔ pyLower (pystr "NoNe") = pystr "none") ∧
      (pyLower (pystr "NoNe") = pystr "none" → f.severity = .CRITICAL) ∧
      (¬pyLower (pystr "NoNe") = pystr "none" → f.vulnerable = false)) ∧
    (∀ kvs : List (PyStr × Json), memKey (pystr "alg") (kvs.map Prod.fst) = false →
      algString (Json.obj kvs) = some [])) :=
  ⟨rfl, C1_none_algorithm (Json.obj [(pystr "alg", Json.str (pystr "NoNe"))]) (Json.obj [])
    [] (pystr "NoNe") rfl⟩

/-- C2: the audit's scoring starts at 100, subtracts the fixed penalty of
each vulnerable finding (CRITICAL 40, HIGH 30, MEDIUM 20, LOW 10, INFO 0),
clamps into [0, 100], and reports SAFE exactly when the final score is at
least 80; the empty findings list scores 100 and is SAFE. -/
theorem C2_scoring (fs : List Finding) :
    securityScore fs = specClamp (100 - specTotalPenalty fs) ∧
    (statusOf fs = pystr "SAFE" ↔ 80 ≤ securityScore fs) ∧
    securityScore [] = 100 ∧ statusOf [] = pystr "SAFE" := by
  refine ⟨securityScore_spec fs, ?_, by decide, by decide⟩
  unfold statusOf
  split_ifs with h
  · exact ⟨fun _ => h, fun _ => rfl⟩
  · exact ⟨fun he => absurd he (by decide), fun hs => absurd hs h⟩

/-- C4: a token that does not split into exactly three dot-separated parts
makes `audit` return the failure dict with the wrong-part-count error and
the original token; the detector list is never consulted (any two lists
give the same result), and the error message is nonempty. -/
theorem C4_wrong_parts (token : PyStr) (ds ds2 : List Detector)
    (h : (pySplitDot token).length ≠ 3) :
    audit ds token = .failure errParts token ∧
    audit ds token = audit ds2 token ∧
    errParts ≠ [] := by
  have hd := decode_jwt_not3 token h
  unfold audit
  rw [hd]
  exact ⟨rfl, rfl, by decide⟩

/-- C4 witness: a two-segment and a four-segment token both fail this way. -/
theorem C4_wrong_parts_witness :
    (pySplitDot (pystr "header.payload")).length ≠ 3 ∧
    (audit [none_algorithm_detect] (pystr "header.payload") =
        .failure errParts (pystr "header.payload") ∧
      audit [none_algorithm_detect] (pystr "header.payload") =
        audit [weak_key_detect] (pystr "header.payload") ∧
      errParts ≠ []) ∧
    (pySplitDot (pystr "a.b.c.d")).length ≠ 3 ∧
    (audit [none_algorithm_detect] (pystr "a.b.c.d") =
        .failure errParts (pystr "a.b.c.d") ∧
      audit [none_algorithm_detect] (pystr "a.b.c.d") =
        audit [weak_key_detect] (pystr "a.b.c.d") ∧
      errParts ≠ []) :=
  ⟨by decide, C4_wrong_parts (pystr "header.payload") [none_algorithm_detect]
      [weak_key_detect] (by decide),
    by decide, C4_wrong_parts (pystr "a.b.c.d") [none_algorithm_detect]
      [weak_key_detect] (by decide)⟩

/-- C5 counterexample: `"NQ"` decodes to the JSON number 5 — not object
text — yet `decode_jwt` SUCCEEDS on `"NQ.e30."`: the decoder never checks
that the parsed JSON is an object. -/
theorem C5_counterexample :
    decode_jwt (pystr "NQ.e30.") = .ok (Json.num 5, Json.obj [], []) ∧
    ∀ kvs : List (PyStr × Json), Json.num 5 ≠ Json.obj kvs :=
  ⟨rfl, fun kvs h => Json.noConfusion h⟩

/-- C5 (amended): for a three-part token, decoding fails with the
segment-decode error exactly when one of the first two segments fails its
pipeline, and a segment's pipeline fails exactly when Base64 decoding,
UTF-8 decoding or JSON parsing fails — parsing to a non-object VALUE is
not a failure. -/
theorem C5_segment_failures (token p0 p1 p2 : PyStr)
    (hsplit : pySplitDot token = [p0, p1, p2]) :
    (decode_jwt token = .error errSegment ↔
      decodeSegment p0 = none ∨ decodeSegment p1 = none) ∧
    (∀ q : PyStr, decodeSegment q = none ↔
      base64url_decode q = none ∨
      (∃ bs, base64url_decode q = some bs ∧ utf8Decode bs = none) ∨
      (∃ bs s, base64url_decode q = some bs ∧ utf8Decode bs = some s ∧
        json_loads s = none)) := by
  constructor
  · constructor
    · intro he
      by_contra hno
      push_neg at hno
      obtain ⟨h0, h1⟩ := hno
      rcases hx0 : decodeSegment p0 with _ | hd
      · exact h0 hx0
      rcases hx1 : decodeSegment p1 with _ | pl
      · exact h1 hx1
      unfold decode_jwt at he
      rw [hsplit] at he
      simp only [] at he
      rw [hx0] at he
      simp only [] at he
      rw [hx1] at he
      exact Except.noConfusion he
    · intro h
      unfold decode_jwt
      rw [hsplit]
      simp only []
      rcases h with h | h
      · rw [h]
      · rcases h0 : decodeSegment p0 with _ | hd
        · rfl
        · simp only []
          rw [h]
  · intro q
    constructor
    · intro hq
      rcases hb : base64url_decode q with _ | bs
      · exact Or.inl rfl
      rcases hu : utf8Decode bs with _ | str1
      · exact Or.inr (Or.inl ⟨bs, rfl, hu⟩)
      · refine Or.inr (Or.inr ⟨bs, str1, rfl, hu, ?_⟩)
        unfold decodeSegment at hq
        rw [hb] at hq
        simp only [Option.pure_def, Option.bind_eq_bind, Option.some_bind] at hq
        rw [hu] at hq
        simp only [Option.some_bind] at hq
        exact hq
    · intro hq
      unfold decodeSegment
      rcases hq with hb | ⟨bs, hb, hu⟩ | ⟨bs, str1, hb, hu, hj⟩
      · rw [hb]
        rfl
      · rw [hb]
        simp only [Option.pure_def, Option.bind_eq_bind, Option.some_bind]
        rw [hu]
        rfl
      · rw [hb]
        simp only [Option.pure_def, Option.bind_eq_bind, Option.some_bind]
        rw [hu]
        simp only [Option.some_bind]
        exact hj

/-- C5 witness: `"AAAAA.e30."` — its first segment is five Base64
characters, an impossible length, so decoding fails with the segment
error. -/
theorem C5_segment_failures_witness :
    pySplitDot (pystr "AAAAA.e30.") = [pystr "AAAAA", pystr "e30", []] ∧
    ((decode_jwt (pystr "AAAAA.e30.") = .error errSegment ↔
      decodeSegment (pystr "AAAAA") = none ∨ decodeSegment (pystr "e30") = none) ∧
    (∀ q : PyStr, decodeSegment q = none ↔
      base64url_decode q = none ∨
      (∃ bs, base64url_decode q = some bs ∧ utf8Decode bs = none) ∨
      (∃ bs s, base64url_decode q = some bs ∧ utf8Decode bs = some s ∧
        json_loads s = none))) :=
  ⟨rfl, C5_segment_failures (pystr "AAAAA.e30.") (pystr "AAAAA") (pystr "e30") [] rfl⟩

/-- C8 counterexample: with `alg` the number 5, `weak_key.detect` raises
`AttributeError` on `.upper()` and no finding at all is produced — not an
INFO finding. -/
theorem C8_counterexample :
    weak_key_detect (Json.obj [(pystr "alg", Json.num 5)]) (Json.obj []) [] = none ∧
    ∀ f : Finding,
      weak_key_detect (Json.obj [(pystr "alg", Json.num 5)]) (Json.obj []) [] ≠ some f :=
  ⟨rfl, fun f h => Option.noConfusion h⟩

/-- C8 (amended): whenever the header's `alg` access yields a string `a`,
`weak_key.detect` returns a non-vulnerable finding; it is MEDIUM and
carries the first five advisory weak secrets plus the ≥32-character
recommendation exactly when `a` upper-cased starts with `"HS"`, and INFO
otherwise. -/
theorem C8_weak_key (header payload : Json) (sig : PyStr) (a : PyStr)
    (ha : algString header = some a) :
    ∃ f : Finding, weak_key_detect header payload sig = some f ∧
      f.vulnerable = false ∧
      (f.severity = .MEDIUM ↔ pyStartsWith (pystr "HS") (pyUpper a) = true) ∧
      (pyStartsWith (pystr "HS") (pyUpper a) = true →
        f.weak_keys_to_check = some (WEAK_SECRETS.take 5) ∧
        f.recommendation = some (pystr "使用强随机密钥，长度至少32字符")) ∧
      (pyStartsWith (pystr "HS") (pyUpper a) = false → f.severity = .INFO) := by
  unfold weak_key_detect
  rw [ha]
  simp only [Option.pure_def, Option.bind_eq_bind, Option.some_bind]
  split_ifs with hs
  · refine ⟨_, rfl, rfl, ⟨fun _ => hs, fun _ => rfl⟩, fun _ => ⟨rfl, rfl⟩, ?_⟩
    intro hc
    rw [hs] at hc
    exact Bool.noConfusion hc
  · refine ⟨_, rfl, rfl, ?_, fun hc => absurd hc hs, fun _ => rfl⟩
    exact ⟨fun hm => Severity.noConfusion hm, fun hc => absurd hc hs⟩

/-- C8 witness: `"HS256"` is in the HMAC family; the MEDIUM advisory
finding carries the weak-secret list and the key-length recommendation. -/
theorem C8_weak_key_witness :
    algString (Json.obj [(pystr "alg", Json.str (pystr "HS256"))]) =
      some (pystr "HS256") ∧
    ∃ f : Finding, weak_key_detect (Json.obj [(pystr "alg", Json.str (pystr "HS256"))])
        (Json.obj []) [] = some f ∧
      f.vulnerable = false ∧
      (f.severity = .MEDIUM ↔ pyStartsWith (pystr "HS") (pyUpper (pystr "HS256")) = true) ∧
      (pyStartsWith (pystr "HS") (pyUpper (pystr "HS256")) = true →
        f.weak_keys_to_check = some (WEAK_SECRETS.take 5) ∧
        f.recommendation = some (pystr "使用强随机密钥，长度至少32字符")) ∧
      (pyStartsWith (pystr "HS") (pyUpper (pystr "HS256")) = false → f.severity = .INFO) :=
  ⟨rfl, C8_weak_key (Json.obj [(pystr "alg", Json.str (pystr "HS256"))]) (Json.obj []) []
    (pystr "HS256") rfl⟩

/-- C9: appending a vulnerable CRITICAL finding never increases the score,
and every findings list scores within [0, 100]. -/
theorem C9_score_monotonic (fs : List Finding) (f : Finding)
    (hv : f.vulnerable = true) (hs : f.severity = .CRITICAL) :
    securityScore (fs ++ [f]) ≤ securityScore fs ∧
    ∀ gs : List Finding, 0 ≤ securityScore gs ∧ securityScore gs ≤ 100 := by
  constructor
  · rw [securityScore_spec, securityScore_spec]
    have hT : specTotalPenalty (fs ++ [f]) = specTotalPenalty fs + 40 := by
      unfold specTotalPenalty
      rw [List.map_append, List.sum_append]
      simp [specFindingPenalty, hv, hs, specPenalty]
    rw [hT]
    unfold specClamp
    refine max_le_max (le_refl 0) ?_
    refine min_le_min (le_refl 100) ?_
    omega
  · intro gs
    rw [securityScore_spec]
    unfold specClamp
    have := specTotalPenalty_nonneg gs
    refine ⟨le_max_left 0 _, ?_⟩
    refine max_le (by omega) ?_
    exact min_le_left 100 _

/-- C9 witness at the empty list and a concrete CRITICAL finding. -/
theorem C9_score_monotonic_witness :
    criticalSample.vulnerable = true ∧ criticalSample.severity = .CRITICAL ∧
    (securityScore ([] ++ [criticalSample]) ≤ securityScore [] ∧
     ∀ gs : List Finding, 0 ≤ securityScore gs ∧ securityScore gs ≤ 100) :=
  ⟨rfl, rfl, C9_score_monotonic [] criticalSample rfl rfl⟩

/-- C3: when `none_algorithm.detect` reports vulnerable on a decoded
header/payload pair, the header is an object and the PoC is the Base64URL
encoding (no padding) of the header with `alg` forced to `"none"`, a dot,
the encoded unchanged payload, and a single trailing dot; decoding the PoC
succeeds and yields that forced header — whose `alg` is the string
`"none"` — and the original payload with an empty signature. -/
theorem C3_exploit_roundtrip (token : PyStr) (header payload : Json) (sig : PyStr)
    (f : Finding)
    (hdec : decode_jwt token = .ok (header, payload, sig))
    (hdet : none_algorithm_detect header payload sig = some f)
    (hvul : f.vulnerable = true) :
    ∃ kvs : List (PyStr × Json), header = .obj kvs ∧
      f.exploit_poc = some (base64url_encode
          (Json.obj (dInsert kvs (pystr "alg") (.str (pystr "none")))) ++
        46 :: base64url_encode payload ++ [46]) ∧
      ∀ poc : PyStr, f.exploit_poc = some poc →
        decode_jwt poc =
          .ok (Json.obj (dInsert kvs (pystr "alg") (.str (pystr "none"))), payload, []) ∧
        algString (Json.obj (dInsert kvs (pystr "alg") (.str (pystr "none")))) =
          some (pystr "none") := by
  obtain ⟨hwfh, hwfp⟩ := decode_jwt_wf token header payload sig hdec
  unfold none_algorithm_detect at hdet
  rcases ha : algString header with _ | a <;> rw [ha] at hdet
  · exact Option.noConfusion hdet
  simp only [Option.pure_def, Option.bind_eq_bind, Option.some_bind] at hdet
  split_ifs at hdet with hn
  · obtain ⟨kvs, rfl⟩ := algString_some_obj header a ha
    injection hdet with hf
    subst hf
    refine ⟨kvs, rfl, rfl, ?_⟩
    intro poc hpoc
    injection hpoc with hpoc1
    subst hpoc1
    constructor
    · have he : generate_exploit_poc (Json.obj kvs) payload =
          base64url_encode (Json.obj (dInsert kvs (pystr "alg") (.str (pystr "none")))) ++
            46 :: base64url_encode payload ++ [46] := rfl
      rw [he]
      exact decode_jwt_poc _ payload (jwf_exploit_header kvs hwfh) hwfp
    · exact algString_exploit kvs
  · injection hdet with hf
    rw [← hf] at hvul
    exact Bool.noConfusion hvul

/-- C3 witness: the all-`none` sample token. -/
theorem C3_exploit_roundtrip_witness :
    decode_jwt (pystr "eyJhbGciOiJub25lIn0.e30.") = .ok (c3header, Json.obj [], []) ∧
    none_algorithm_detect c3header (Json.obj []) [] = some c3finding ∧
    c3finding.vulnerable = true ∧
    (∃ kvs : List (PyStr × Json), c3header = .obj kvs ∧
      c3finding.exploit_poc = some (base64url_encode
          (Json.obj (dInsert kvs (pystr "alg") (.str (pystr "none")))) ++
        46 :: base64url_encode (Json.obj []) ++ [46]) ∧
      ∀ poc : PyStr, c3finding.exploit_poc = some poc →
        decode_jwt poc =
          .ok (Json.obj (dInsert kvs (pystr "alg") (.str (pystr "none"))), Json.obj [], []) ∧
        algString (Json.obj (dInsert kvs (pystr "alg") (.str (pystr "none")))) =
          some (pystr "none")) :=
  ⟨rfl, rfl, rfl,
    C3_exploit_roundtrip (pystr "eyJhbGciOiJub25lIn0.e30.") c3header (Json.obj []) []
      c3finding rfl rfl rfl⟩

/-- C6: a successfully decoded token's third dot-separated segment is
returned verbatim as the signature, the audit result reports exactly its
character length, and tokens with an empty third segment (two encoded
segments and a trailing dot) decode successfully with an empty
signature. -/
theorem C6_signature_verbatim (token : PyStr) (ds : List Detector)
    (hd pl : Json) (sig : PyStr)
    (h : decode_jwt token = .ok (hd, pl, sig)) :
    (∃ p0 p1, pySplitDot token = [p0, p1, sig]) ∧
    (∃ fs sc sm, audit ds token =
      .ok token (jwtShort token) hd pl sig.length fs sc sm) ∧
    (∀ a b : PyStr, 46 ∉ a → 46 ∉ b → ∀ ja jb : Json,
      decodeSegment a = some ja → decodeSegment b = some jb →
      decode_jwt (a ++ 46 :: b ++ [46]) = .ok (ja, jb, [])) := by
  refine ⟨decode_jwt_split token hd pl sig h, ?_, ?_⟩
  · unfold audit
    rw [h]
    exact ⟨_, _, _, rfl⟩
  · intro a b ha46 hb46 ja jb hsa hsb
    unfold decode_jwt
    rw [List.append_assoc, List.cons_append]
    rw [pySplitDot_append _ _ ha46, pySplitDot_append _ _ hb46]
    rw [(show pySplitDot [] = [[]] from rfl)]
    simp only []
    rw [hsa]
    simp only []
    rw [hsb]

/-- C6 witness: `"e30.e30."` — two empty objects and an empty signature. -/
theorem C6_signature_verbatim_witness :
    decode_jwt (pystr "e30.e30.") = .ok (Json.obj [], Json.obj [], []) ∧
    ((∃ p0 p1, pySplitDot (pystr "e30.e30.") = [p0, p1, []]) ∧
     (∃ fs sc sm, audit [] (pystr "e30.e30.") =
       .ok (pystr "e30.e30.") (jwtShort (pystr "e30.e30.")) (Json.obj []) (Json.obj [])
         (List.length ([] : PyStr)) fs sc sm) ∧
     (∀ a b : PyStr, 46 ∉ a → 46 ∉ b → ∀ ja jb : Json,
       decodeSegment a = some ja → decodeSegment b = some jb →
       decode_jwt (a ++ 46 :: b ++ [46]) = .ok (ja, jb, []))) :=
  ⟨rfl, C6_signature_verbatim (pystr "e30.e30.") [] (Json.obj []) (Json.obj []) [] rfl⟩

/-- C7: `audit` is total — every call returns a failure or a success
dict — and a detector that fails on every input is excluded from the
findings while the remaining detectors still contribute: the audit result
equals the one without the faulting detector. -/
theorem C7_detector_isolation (token : PyStr) (ds1 ds2 : List Detector) (bad : Detector)
    (hb : ∀ h p s, bad h p s = none) :
    audit (ds1 ++ bad :: ds2) token = audit (ds1 ++ ds2) token ∧
    ((∃ e, audit (ds1 ++ bad :: ds2) token = .failure e token) ∨
     (∃ hd pl slen fs sc sm, audit (ds1 ++ bad :: ds2) token =
       .ok token (jwtShort token) hd pl slen fs sc sm)) := by
  have hrd : ∀ h p s, runDetectors (ds1 ++ bad :: ds2) h p s = runDetectors (ds1 ++ ds2) h p s :=
    runDetectors_isolate ds1 ds2 bad hb
  unfold audit
  rcases hdec : decode_jwt token with e | trip
  · exact ⟨rfl, Or.inl ⟨e, rfl⟩⟩
  · rcases trip with ⟨hd, pl, sg⟩
    constructor
    · simp only [hrd]
    · exact Or.inr ⟨hd, pl, sg.length, _, _, _, rfl⟩

/-- C7 witness: an always-`none` detector between the two real ones on a
decodable token. -/
theorem C7_detector_isolation_witness :
    audit ([none_algorithm_detect] ++ (fun _ _ _ => none : Detector) :: [weak_key_detect])
        (pystr "e30.e30.") =
      audit ([none_algorithm_detect] ++ [weak_key_detect]) (pystr "e30.e30.") ∧
    ((∃ e, audit ([none_algorithm_detect] ++ (fun _ _ _ => none : Detector) ::
        [weak_key_detect]) (pystr "e30.e30.") = .failure e (pystr "e30.e30.")) ∨
     (∃ hd pl slen fs sc sm, audit ([none_algorithm_detect] ++
        (fun _ _ _ => none : Detector) :: [weak_key_detect]) (pystr "e30.e30.") =
       .ok (pystr "e30.e30.") (jwtShort (pystr "e30.e30.")) hd pl slen fs sc sm)) :=
  C7_detector_isolation (pystr "e30.e30.") [none_algorithm_detect] [weak_key_detect]
    (fun _ _ _ => none) (fun _ _ _ => rfl)

/-- C10: neither detector mutates the caller's dicts: on the heap model,
`none_algorithm.detect` leaves the header and payload cells exactly as
they were (its PoC writes `alg` only into a fresh copy), `weak_key.detect`
leaves the whole heap untouched, and the heap replay returns the same
finding as the pure embedding applied to the original dicts. -/
theorem C10_no_mutation (heap : Heap) (hRef pRef : Nat) (sig : PyStr)
    (hh : hRef < heap.length) (hp : pRef < heap.length) :
    ((none_algorithm_detect_heap heap hRef pRef sig).1.get? hRef = heap.get? hRef ∧
     (none_algorithm_detect_heap heap hRef pRef sig).1.get? pRef = heap.get? pRef) ∧
    (weak_key_detect_heap heap hRef pRef sig).1 = heap ∧
    (none_algorithm_detect_heap heap hRef pRef sig).2 =
      none_algorithm_detect (Json.obj (heapGet heap hRef)) (Json.obj (heapGet heap pRef))
        sig := by
  unfold none_algorithm_detect_heap none_algorithm_detect
  simp only [generate_exploit_poc_heap, heapCopy, generate_exploit_poc]
  rcases ha : algString (Json.obj (heapGet heap hRef)) with _ | a
  · exact ⟨⟨rfl, rfl⟩, rfl, rfl⟩
  · simp only [Option.pure_def, Option.bind_eq_bind, Option.some_bind]
    split_ifs with hn
    · have e1 : heapGet (heap ++ [heapGet heap hRef]) heap.length = heapGet heap hRef :=
        heapGet_append_self heap _
      have e2 : heapGet (heapSet (heap ++ [heapGet heap hRef]) heap.length (pystr "alg")
          (Json.str (pystr "none"))) heap.length =
          dInsert (heapGet heap hRef) (pystr "alg") (Json.str (pystr "none")) := by
        rw [heapSet_get_self _ _ _ _ (by simp), e1]
      have e3 : heapGet (heapSet (heap ++ [heapGet heap hRef]) heap.length (pystr "alg")
          (Json.str (pystr "none"))) pRef = heapGet heap pRef := by
        unfold heapGet
        rw [heapSet_get_other _ _ _ _ _ (by omega), List.get?_append hp]
      refine ⟨⟨?_, ?_⟩, rfl, ?_⟩
      · rw [heapSet_get_other _ _ _ _ _ (by omega)]
        exact List.get?_append hh
      · rw [heapSet_get_other _ _ _ _ _ (by omega)]
        exact List.get?_append hp
      · simp only [e2, e3]
    · exact ⟨⟨rfl, rfl⟩, rfl, rfl⟩

/-- C10 witness: a two-cell heap holding a `none`-algorithm header and an
empty payload — the PoC branch runs and the cells stay intact. -/
theorem C10_no_mutation_witness :
    (0 : Nat) < ([[(pystr "alg", Json.str (pystr "none"))], []] : Heap).length ∧
    (1 : Nat) < ([[(pystr "alg", Json.str (pystr "none"))], []] : Heap).length ∧
    (((none_algorithm_detect_heap [[(pystr "alg", Json.str (pystr "none"))], []] 0 1
        []).1.get? 0 = ([[(pystr "alg", Json.str (pystr "none"))], []] : Heap).get? 0 ∧
      (none_algorithm_detect_heap [[(pystr "alg", Json.str (pystr "none"))], []] 0 1
        []).1.get? 1 = ([[(pystr "alg", Json.str (pystr "none"))], []] : Heap).get? 1) ∧
     (weak_key_detect_heap [[(pystr "alg", Json.str (pystr "none"))], []] 0 1 []).1 =
       [[(pystr "alg", Json.str (pystr "none"))], []] ∧
     (none_algorithm_detect_heap [[(pystr "alg", Json.str (pystr "none"))], []] 0 1 []).2 =
       none_algorithm_detect
         (Json.obj (heapGet [[(pystr "alg", Json.str (pystr "none"))], []] 0))
         (Json.obj (heapGet [[(pystr "alg", Json.str (pystr "none"))], []] 1)) []) :=
  ⟨by decide, by decide,
    C10_no_mutation [[(pystr "alg", Json.str (pystr "none"))], []] 0 1 []
      (by decide) (by decide)⟩

end JWTAudit
